import Mathlib

/-!
Verification of the reconciliation and scheduling engine of this repository
against its specification. The repository ships only the top-level glue file
packages/yew/src/lib.rs; the virtual-dom differ, the component runtime and the
scheduler are declared there as modules but their code is not under src, so
those parts are modelled from the specification text and marked as such in
their doc comments. The panic-hook logic and the start_app entry points are
embedded directly from packages/yew/src/lib.rs.
-/

namespace Yew

/-- Modelled from the spec: the virtual node model (spec section 3), standing in
for the missing virtual_dom module. The model covers the structural core used
by the differ claims: text nodes and elements with a tag, an ordered attribute
mapping, an optional sibling key and an ordered child list. Listener
descriptors are diffed exactly like attributes in the spec, so they are
represented by the same mechanism; the component, portal and suspense variants
are opaque placeholders outside this structural model. -/
inductive VNode where
  | text (s : String) : VNode
  | element (tag : String) (attrs : List (String × String)) (key : Option String)
      (children : List VNode) : VNode

mutual

/-- Structural equality test on virtual nodes (spec section 4.1: equality is
structural). -/
def vnodeEq : VNode → VNode → Bool
  | .text s, .text t => s == t
  | .element t1 a1 k1 c1, .element t2 a2 k2 c2 =>
      t1 == t2 && a1 == a2 && k1 == k2 && vnodeListEq c1 c2
  | _, _ => false
termination_by a _ => sizeOf a

/-- Structural equality test on lists of virtual nodes. -/
def vnodeListEq : List VNode → List VNode → Bool
  | [], [] => true
  | x :: xs, y :: ys => vnodeEq x y && vnodeListEq xs ys
  | _, _ => false
termination_by xs _ => sizeOf xs

end

theorem vnodeEq_iff : ∀ (a b : VNode), vnodeEq a b = true ↔ a = b := by
  have main : ∀ n, ∀ (a : VNode), sizeOf a ≤ n → ∀ b, vnodeEq a b = true ↔ a = b := by
    intro n
    induction n using Nat.strong_induction_on with
    | _ n ih =>
      intro a ha b
      cases a with
      | text s =>
        cases b with
        | text t => simp [vnodeEq]
        | element t2 a2 k2 c2 => simp [vnodeEq]
      | element t1 a1 k1 c1 =>
        cases b with
        | text t => simp [vnodeEq]
        | element t2 a2 k2 c2 =>
          have hlist : ∀ (xs : List VNode), sizeOf xs < n →
              ∀ ys, vnodeListEq xs ys = true ↔ xs = ys := by
            intro xs
            induction xs with
            | nil =>
              intro _ ys
              cases ys with
              | nil => simp [vnodeListEq]
              | cons y ys => simp [vnodeListEq]
            | cons x xs ihx =>
              intro hsz ys
              cases ys with
              | nil => simp [vnodeListEq]
              | cons y ys =>
                have hx : sizeOf x ≤ n - 1 := by
                  have h0 : sizeOf x < sizeOf (x :: xs) := by
                    simp only [List.cons.sizeOf_spec]; omega
                  omega
                have hxs : sizeOf xs < n := by
                  have h0 : sizeOf xs < sizeOf (x :: xs) := by
                    simp only [List.cons.sizeOf_spec]; omega
                  omega
                have hn : n - 1 < n := by
                  have h0 : 0 < sizeOf x := by
                    cases x <;> simp only [VNode.text.sizeOf_spec, VNode.element.sizeOf_spec]
                      <;> omega
                  omega
                have h1 := ih (n - 1) hn x hx y
                have h2 := ihx hxs ys
                simp [vnodeListEq, h1, h2]
          have hc : sizeOf c1 < n := by
            have h0 : sizeOf c1 < sizeOf (VNode.element t1 a1 k1 c1) := by
              simp only [VNode.element.sizeOf_spec]; omega
            omega
          have h2 := hlist c1 hc c2
          simp [vnodeEq, h2, VNode.element.injEq]
          tauto
  intro a b
  exact main (sizeOf a) a (le_refl _) b

theorem vnodeListEq_iff : ∀ (xs ys : List VNode), vnodeListEq xs ys = true ↔ xs = ys := by
  intro xs
  induction xs with
  | nil => intro ys; cases ys <;> simp [vnodeListEq]
  | cons x xs ihx =>
    intro ys
    cases ys with
    | nil => simp [vnodeListEq]
    | cons y ys => simp [vnodeListEq, vnodeEq_iff, ihx]

instance : DecidableEq VNode := fun a b =>
  decidable_of_iff (vnodeEq a b = true) (vnodeEq_iff a b)

/-- Modelled from the spec: the optional stable key of a virtual node. -/
def keyOf : VNode → Option String
  | .text _ => none
  | .element _ _ k _ => k

/-- Modelled from the spec: a node of the live document, standing in for the
missing live-document driver state. The live document mirrors the committed
structure: text nodes, and elements with a tag, an attribute mapping and a
child list. The driver stores the attribute mapping canonically (sorted by
attribute name, one entry per name), so that structural equality of documents
is equality of attribute mappings. Keys are a virtual-tree concept and do not
exist on live nodes. -/
inductive DNode where
  | text (s : String) : DNode
  | element (tag : String) (attrs : List (String × String)) (children : List DNode) : DNode

/-- Lookup of an attribute value by name in an ordered attribute list; the
first entry for the name wins. -/
def lookupA (k : String) : List (String × String) → Option String
  | [] => none
  | p :: rest => if p.1 = k then some p.2 else lookupA k rest

/-- Insertion of an attribute into a name-sorted attribute list, replacing the
entry for that name when present. This is how the live-document driver stores
a set_attribute primitive. -/
def insertAttr (k v : String) : List (String × String) → List (String × String)
  | [] => [(k, v)]
  | p :: rest =>
    if k < p.1 then (k, v) :: p :: rest
    else if k = p.1 then (k, v) :: rest
    else p :: insertAttr k v rest

/-- Removal of the entries for an attribute name; this is how the live-document
driver executes a remove_attribute primitive. -/
def removeAttrKey (k : String) : List (String × String) → List (String × String)
  | [] => []
  | p :: rest => if p.1 = k then removeAttrKey k rest else p :: removeAttrKey k rest

/-- Canonical form of an attribute mapping: sorted by name, first entry for a
name winning, as stored on live-document elements. -/
def normAttrs (l : List (String × String)) : List (String × String) :=
  l.foldr (fun p acc => insertAttr p.1 p.2 acc) []

/-- Strict sortedness by attribute name of an attribute list. -/
abbrev AttrsSorted (l : List (String × String)) : Prop :=
  l.Pairwise (fun p q => p.1 < q.1)

theorem lookupA_insertAttr (k k' v : String) (l : List (String × String)) :
    lookupA k' (insertAttr k v l) = if k' = k then some v else lookupA k' l := by
  induction l with
  | nil =>
    by_cases h : k' = k
    · simp [insertAttr, lookupA, h]
    · have : ¬ (k = k') := fun hh => h hh.symm
      simp [insertAttr, lookupA, h, this]
  | cons p rest ih =>
    by_cases h1 : k < p.1
    · simp only [insertAttr, if_pos h1, lookupA]
      by_cases h2 : k' = k
      · simp [h2]
      · have : ¬ (k = k') := fun hh => h2 hh.symm
        simp [this, h2]
    · by_cases h2 : k = p.1
      · simp only [insertAttr, if_neg h1, if_pos h2, lookupA]
        by_cases h3 : k' = k
        · simp [h3]
        · have hk : ¬ (k = k') := fun hh => h3 hh.symm
          have hp : ¬ (p.1 = k') := by rw [← h2]; exact hk
          simp [hk, h3, hp]
      · simp only [insertAttr, if_neg h1, if_neg h2, lookupA]
        by_cases h3 : p.1 = k'
        · have hne : ¬ (k' = k) := by
            intro hh
            rw [hh] at h3
            exact h2 h3.symm
          simp [h3, hne]
        · simp [h3, ih]

theorem lookupA_removeAttrKey (k k' : String) (l : List (String × String)) :
    lookupA k' (removeAttrKey k l) = if k' = k then none else lookupA k' l := by
  induction l with
  | nil => simp [removeAttrKey, lookupA]
  | cons p rest ih =>
    by_cases h1 : p.1 = k
    · by_cases h2 : k' = k
      · subst h2
        simp [removeAttrKey, if_pos h1, ih]
      · have hp : ¬ (p.1 = k') := by rw [h1]; exact fun hh => h2 hh.symm
        simp only [removeAttrKey, if_pos h1, ih, if_neg h2, lookupA, if_neg hp]
    · by_cases h2 : p.1 = k'
      · have hk : ¬ (k' = k) := by rw [← h2]; exact h1
        simp only [removeAttrKey, if_neg h1, lookupA, if_pos h2, if_neg hk]
      · simp only [removeAttrKey, if_neg h1, lookupA, if_neg h2, ih]

theorem lookupA_normAttrs (k : String) (l : List (String × String)) :
    lookupA k (normAttrs l) = lookupA k l := by
  induction l with
  | nil => simp [normAttrs, lookupA]
  | cons p rest ih =>
    simp only [normAttrs, List.foldr_cons] at *
    rw [lookupA_insertAttr]
    by_cases h : k = p.1
    · simp [h, lookupA]
    · have : ¬ (p.1 = k) := fun hh => h hh.symm
      simp [h, lookupA, this, ih]

theorem mem_insertAttr (k v : String) (l : List (String × String)) (q : String × String) :
    q ∈ insertAttr k v l → q = (k, v) ∨ q ∈ l := by
  induction l with
  | nil => simp [insertAttr]
  | cons p rest ih =>
    by_cases h1 : k < p.1
    · simp only [insertAttr, if_pos h1, List.mem_cons]
      tauto
    · by_cases h2 : k = p.1
      · simp only [insertAttr, if_neg h1, if_pos h2, List.mem_cons]
        tauto
      · simp only [insertAttr, if_neg h1, if_neg h2, List.mem_cons]
        rintro (h | h)
        · right; left; exact h
        · rcases ih h with h | h
          · left; exact h
          · right; right; exact h

theorem mem_removeAttrKey (k : String) (l : List (String × String)) (q : String × String) :
    q ∈ removeAttrKey k l → q ∈ l := by
  induction l with
  | nil => simp [removeAttrKey]
  | cons p rest ih =>
    by_cases h1 : p.1 = k
    · simp only [removeAttrKey, if_pos h1]
      intro h
      exact List.mem_cons_of_mem _ (ih h)
    · simp only [removeAttrKey, if_neg h1, List.mem_cons]
      rintro (h | h)
      · left; exact h
      · right; exact ih h

theorem insertAttr_sorted (k v : String) (l : List (String × String))
    (hs : AttrsSorted l) : AttrsSorted (insertAttr k v l) := by
  induction l with
  | nil => simp [insertAttr]
  | cons p rest ih =>
    rcases hs with _ | ⟨hp, hrest⟩
    by_cases h1 : k < p.1
    · simp only [insertAttr, if_pos h1]
      refine List.Pairwise.cons ?_ (List.Pairwise.cons hp hrest)
      intro q hq
      simp only [List.mem_cons] at hq
      rcases hq with hq | hq
      · simpa [hq] using h1
      · exact lt_trans h1 (hp q hq)
    · by_cases h2 : k = p.1
      · simp only [insertAttr, if_neg h1, if_pos h2]
        refine List.Pairwise.cons ?_ hrest
        intro q hq
        simpa [h2] using hp q hq
      · simp only [insertAttr, if_neg h1, if_neg h2]
        refine List.Pairwise.cons ?_ (ih hrest)
        intro q hq
        rcases mem_insertAttr k v rest q hq with h | h
        · have hlt : p.1 < k := by
            rcases lt_trichotomy k p.1 with hx | hx | hx
            · exact absurd hx h1
            · exact absurd hx h2
            · exact hx
          simpa [h] using hlt
        · exact hp q h

theorem normAttrs_sorted (l : List (String × String)) : AttrsSorted (normAttrs l) := by
  induction l with
  | nil => simp [normAttrs]
  | cons p rest ih =>
    simp only [normAttrs, List.foldr_cons] at *
    exact insertAttr_sorted p.1 p.2 _ ih

theorem removeAttrKey_sorted (k : String) (l : List (String × String))
    (hs : AttrsSorted l) : AttrsSorted (removeAttrKey k l) := by
  induction l with
  | nil => simp [removeAttrKey]
  | cons p rest ih =>
    rcases hs with _ | ⟨hp, hrest⟩
    by_cases h1 : p.1 = k
    · simp only [removeAttrKey, if_pos h1]
      exact ih hrest
    · simp only [removeAttrKey, if_neg h1]
      refine List.Pairwise.cons ?_ (ih hrest)
      intro q hq
      exact hp q (mem_removeAttrKey k rest q hq)

theorem lookupA_eq_none_of_forall_lt (k : String) (l : List (String × String))
    (h : ∀ q ∈ l, k < q.1) : lookupA k l = none := by
  induction l with
  | nil => rfl
  | cons p rest ih =>
    have hp : k < p.1 := h p (List.mem_cons_self _ _)
    have hne : ¬ (p.1 = k) := fun hh => absurd (hh ▸ hp) (lt_irrefl _)
    simp only [lookupA, if_neg hne]
    exact ih (fun q hq => h q (List.mem_cons_of_mem _ hq))

/-- Extensionality for canonical attribute lists: two name-sorted attribute
lists with the same lookups are equal. -/
theorem attrs_ext : ∀ (l₁ l₂ : List (String × String)),
    AttrsSorted l₁ → AttrsSorted l₂ →
    (∀ k, lookupA k l₁ = lookupA k l₂) → l₁ = l₂ := by
  intro l₁
  induction l₁ with
  | nil =>
    intro l₂ h₁ h₂ h
    cases l₂ with
    | nil => rfl
    | cons q t₂ =>
      have := h q.1
      simp [lookupA] at this
  | cons p t₁ ih =>
    intro l₂ h₁ h₂ h
    cases l₂ with
    | nil =>
      have := h p.1
      simp [lookupA] at this
    | cons q t₂ =>
      rcases h₁ with _ | ⟨hp1, ht1⟩
      rcases h₂ with _ | ⟨hp2, ht2⟩
      have hkeys : p.1 = q.1 := by
        rcases lt_trichotomy p.1 q.1 with hlt | heq | hgt
        · exfalso
          have h1 := h p.1
          have hnone : lookupA p.1 (q :: t₂) = none := by
            apply lookupA_eq_none_of_forall_lt
            intro r hr
            simp only [List.mem_cons] at hr
            rcases hr with hr | hr
            · simpa [hr] using hlt
            · exact lt_trans hlt (hp2 r hr)
          rw [hnone] at h1
          simp [lookupA] at h1
        · exact heq
        · exfalso
          have h1 := h q.1
          have hnone : lookupA q.1 (p :: t₁) = none := by
            apply lookupA_eq_none_of_forall_lt
            intro r hr
            simp only [List.mem_cons] at hr
            rcases hr with hr | hr
            · simpa [hr] using hgt
            · exact lt_trans hgt (hp1 r hr)
          rw [hnone] at h1
          simp [lookupA] at h1
      have hvals : p.2 = q.2 := by
        have h1 := h p.1
        simp [lookupA, hkeys] at h1
        exact h1
      have htails : t₁ = t₂ := by
        apply ih t₂ ht1 ht2
        intro k
        by_cases hk : k = p.1
        · have e1 : lookupA k t₁ = none := by
            apply lookupA_eq_none_of_forall_lt
            intro r hr; rw [hk]; exact hp1 r hr
          have e2 : lookupA k t₂ = none := by
            apply lookupA_eq_none_of_forall_lt
            intro r hr; rw [hk, hkeys]; exact hp2 r hr
          rw [e1, e2]
        · have h1 := h k
          have hq : ¬ (q.1 = k) := by rw [← hkeys]; exact fun hh => hk hh.symm
          have hp : ¬ (p.1 = k) := fun hh => hk hh.symm
          simpa [lookupA, hp, hq] using h1
      have hpq : p = q := Prod.ext hkeys hvals
      rw [hpq, htails]

mutual

/-- Modelled from the spec: the live-document rendering of a virtual node, as
produced by the create_element and create_text primitives of the document
driver when a fresh subtree is committed (spec section 6). Keys are dropped
and the attribute mapping is stored canonically. -/
def render : VNode → DNode
  | .text s => .text s
  | .element t a _ cs => .element t (normAttrs a) (renderList cs)
termination_by v => sizeOf v

/-- Modelled from the spec: rendering of a child list. -/
def renderList : List VNode → List DNode
  | [] => []
  | v :: vs => render v :: renderList vs
termination_by vs => sizeOf vs

end

theorem renderList_eq_map (vs : List VNode) : renderList vs = vs.map render := by
  induction vs with
  | nil => simp [renderList]
  | cons v vs ih => simp [renderList, ih]

theorem renderList_length (vs : List VNode) : (renderList vs).length = vs.length := by
  rw [renderList_eq_map]; simp

/-- Modelled from the spec: an attribute-level mutation primitive of the
document driver interface (set_attribute or remove_attribute, spec section 6). -/
inductive AttrOp where
  | set (k v : String) : AttrOp
  | remove (k : String) : AttrOp

mutual

/-- Modelled from the spec: the patch the Differ computes for one node pair
(spec section 4.2). keep means the node is unchanged (the shared-subtree fast
path of section 4.1); setText rewrites a text payload; replace creates the new
subtree and splices it in at the same position; update carries the attribute
operations and the ordered child-list operations for a same-tag element pair. -/
inductive Patch where
  | keep : Patch
  | setText (s : String) : Patch
  | replace (v : VNode) : Patch
  | update (attrOps : List AttrOp) (childOps : List ChildOp) : Patch

/-- Modelled from the spec: a child-list mutation primitive (spec sections 4.2
and 6): remove(i) removes the child at index i, insert(i, v) creates the
rendering of v and inserts it at index i, move(src, dst) reinserts the child at
index src at index dst, and patchAt(i, p) applies patch p to the child at
index i. -/
inductive ChildOp where
  | remove (i : Nat) : ChildOp
  | insert (i : Nat) (v : VNode) : ChildOp
  | move (src dst : Nat) : ChildOp
  | patchAt (i : Nat) (p : Patch) : ChildOp

end

/-- Index of the first occurrence of a value in a list of old-child indices. -/
def idxOf (i : Nat) : List Nat → Nat
  | [] => 0
  | j :: t => if j = i then 0 else idxOf i t + 1

/-- Removal of the first occurrence of a value from a list of old-child
indices. -/
def removeElem (i : Nat) : List Nat → List Nat
  | [] => []
  | j :: t => if j = i then t else j :: removeElem i t

/-- Modelled from the spec: the match of one new child against the old child
list (spec section 4.2). A keyed new child matches the first not yet consumed
old child carrying the same key; an unkeyed new child at absolute position j
matches the old child at position j when that child exists, is unkeyed and is
not yet consumed. -/
def matchFor (olds : List VNode) (j : Nat) (consumed : List Nat) (n : VNode) : Option Nat :=
  match keyOf n with
  | some k =>
    (List.range olds.length).find? (fun i =>
      !(consumed.contains i) && (keyOf (olds.getD i (.text (""))) == some k))
  | none =>
    if j < olds.length ∧ keyOf (olds.getD j (.text (""))) = none ∧ consumed.contains j = false
    then some j else none

/-- Modelled from the spec: the matching pass over the remaining new children,
threading the absolute position and the set of already consumed old indices. -/
def computeMatchesGo (olds : List VNode) : Nat → List Nat → List VNode → List (Option Nat)
  | _, _, [] => []
  | j, consumed, n :: rest =>
    let m := matchFor olds j consumed n
    m :: computeMatchesGo olds (j + 1) (consumed ++ m.toList) rest

/-- Modelled from the spec: the matching of new children against old children. -/
def computeMatches (olds news : List VNode) : List (Option Nat) :=
  computeMatchesGo olds 0 [] news

theorem computeMatchesGo_length (olds : List VNode) :
    ∀ (j : Nat) (consumed : List Nat) (news : List VNode),
    (computeMatchesGo olds j consumed news).length = news.length := by
  intro j consumed news
  induction news generalizing j consumed with
  | nil => simp [computeMatchesGo]
  | cons n rest ih => simp [computeMatchesGo, ih]

theorem matchFor_some (olds : List VNode) (j : Nat) (consumed : List Nat) (n : VNode)
    (i : Nat) (h : matchFor olds j consumed n = some i) :
    i < olds.length ∧ ¬ (i ∈ consumed) := by
  unfold matchFor at h
  split at h
  · have hmem := List.mem_of_find?_eq_some h
    have hpred := List.find?_some h
    simp only [Bool.and_eq_true, Bool.not_eq_true'] at hpred
    constructor
    · exact List.mem_range.mp hmem
    · intro hc
      have hct : consumed.contains i = true := by
        simpa using hc
      rw [hct] at hpred
      exact absurd hpred.1 (by simp)
  · split at h
    · rename_i hcond
      injection h with h2
      subst h2
      refine ⟨hcond.1, ?_⟩
      intro hc
      have hct : consumed.contains j = true := by simpa using hc
      rw [hct] at hcond
      exact absurd hcond.2.2 (by simp)
    · exact absurd h (by simp)

theorem computeMatchesGo_sound (olds : List VNode) :
    ∀ (news : List VNode) (j : Nat) (consumed : List Nat),
    ((computeMatchesGo olds j consumed news).filterMap id).Nodup ∧
    (∀ i, i ∈ (computeMatchesGo olds j consumed news).filterMap id →
      i < olds.length ∧ ¬ (i ∈ consumed)) := by
  intro news
  induction news with
  | nil => simp [computeMatchesGo]
  | cons n rest ih =>
    intro j consumed
    simp only [computeMatchesGo]
    rcases ih (j + 1) (consumed ++ (matchFor olds j consumed n).toList) with ⟨ihnodup, ihmem⟩
    cases hmv : matchFor olds j consumed n with
    | none =>
      rw [hmv] at ihnodup ihmem
      simp only [Option.toList_none, List.append_nil] at ihnodup ihmem
      constructor
      · simpa [List.filterMap_cons] using ihnodup
      · intro i hi
        simp only [List.filterMap_cons] at hi
        exact ihmem i (by simpa using hi)
    | some i0 =>
      rw [hmv] at ihnodup ihmem
      simp only [Option.toList_some] at ihnodup ihmem
      have hi0 := matchFor_some olds j consumed n i0 hmv
      constructor
      · simp only [List.filterMap_cons]
        refine List.Nodup.cons ?_ ihnodup
        intro hc
        have := ihmem i0 hc
        simp at this
      · intro i hi
        simp only [List.filterMap_cons] at hi
        have hi : i = i0 ∨ i ∈ (computeMatchesGo olds (j + 1) (consumed ++ [i0]) rest).filterMap id := by
          simpa using hi
        rcases hi with hi | hi
        · subst hi
          exact hi0
        · have := ihmem i hi
          simp only [List.mem_append, List.mem_singleton] at this
          exact ⟨this.1, fun hc => this.2 (Or.inl hc)⟩

/-- Modelled from the spec: the attribute diff of section 4.2. Attribute names
present in old but absent in new are removed; names whose first value in new
differs from their value in old are set to the new value. Listener descriptors
are diffed the same way. -/
def diffAttrs (old new : List (String × String)) : List AttrOp :=
  ((old.filter (fun p => (lookupA p.1 new).isNone)).map (fun p => AttrOp.remove p.1))
  ++ ((new.filter (fun p =>
        lookupA p.1 new == some p.2 && !(lookupA p.1 old == some p.2))).map
      (fun p => AttrOp.set p.1 p.2))

/-- Wrapper turning the patch for a matched child pair into its child-list
operations: an unchanged child (keep, the shared-subtree fast path) emits
nothing, any other patch is addressed to the child at position j. -/
def patchOpFor (j : Nat) (p : Patch) : List ChildOp :=
  match p with
  | .keep => []
  | p => [.patchAt j p]

mutual

/-- Modelled from the spec: the Differ (spec section 4.2), standing in for the
missing virtual_dom differ. If the two nodes are equal the unchanged-subtree
fast path applies and nothing is emitted. Two text nodes produce a text
rewrite. Two elements with the same tag produce the attribute diff and the
child-list reconciliation. A different variant or a different tag is a full
replace of the subtree at the same position. -/
def diff (old new : VNode) : Patch :=
  if old = new then .keep
  else
    match old, new with
    | .text _, .text t => .setText t
    | .element t1 a1 _ c1, .element t2 a2 k2 c2 =>
      if t1 = t2 then .update (diffAttrs a1 a2) (diffChildren c1 c2)
      else .replace (.element t2 a2 k2 c2)
    | .text _, .element t2 a2 k2 c2 => .replace (.element t2 a2 k2 c2)
    | .element _ _ _ _, .text t => .replace (.text t)
termination_by (sizeOf new, 0)

/-- Modelled from the spec: children list reconciliation (spec section 4.2).
New children are matched against old children (by key, else positionally);
unmatched old children are removed in reverse order to keep indices valid
during removal; then the new list is arranged left to right, moving matched
survivors into place, recursing into matched pairs and inserting unmatched new
children at their new position. -/
def diffChildren (olds news : List VNode) : List ChildOp :=
  let ms := computeMatches olds news
  (((List.range olds.length).filter (fun i => !(decide ((some i) ∈ ms)))).reverse.map
      ChildOp.remove)
  ++ arrangeOps olds 0 news ms
      ((List.range olds.length).filter (fun i => decide ((some i) ∈ ms)))
termination_by (sizeOf news, 2)

/-- Modelled from the spec: the arrangement pass of children reconciliation.
Position j is the next slot to fill; pending lists the indices of the matched
old children that survive the removal pass and are not yet moved into place,
in their old relative order. A matched new child whose survivor is not already
at the front of the pending region is moved there, then patched in place; an
unmatched new child is freshly created and inserted. -/
def arrangeOps (olds : List VNode) (j : Nat) (news : List VNode) (ms : List (Option Nat))
    (pending : List Nat) : List ChildOp :=
  match news, ms with
  | [], _ => []
  | _ :: _, [] => []
  | n :: rest, m :: mrest =>
    match m with
    | none => .insert j n :: arrangeOps olds (j + 1) rest mrest pending
    | some i =>
      (if idxOf i pending = 0 then [] else [.move (j + idxOf i pending) j]) ++
      (patchOpFor j (diff (olds.getD i (.text (""))) n) ++
       arrangeOps olds (j + 1) rest mrest (removeElem i pending))
termination_by (sizeOf news, 1)

end

/-- Modelled from the spec: execution of one attribute primitive by the
live-document driver on the canonical attribute mapping of an element. -/
def applyAttrOp (a : List (String × String)) : AttrOp → List (String × String)
  | .set k v => insertAttr k v a
  | .remove k => removeAttrKey k a

/-- Modelled from the spec: execution of a sequence of attribute primitives in
order. -/
def applyAttrOps (ops : List AttrOp) (a : List (String × String)) : List (String × String) :=
  ops.foldl applyAttrOp a

mutual

/-- Modelled from the spec: execution of a node patch by the live-document
driver against the live node the patch is addressed to. Execution is fallible:
a patch addressed to a node of the wrong shape or with an out-of-range child
index returns none. -/
def applyPatch : Patch → DNode → Option DNode
  | .keep, d => some d
  | .setText s, .text _ => some (.text s)
  | .setText _, .element _ _ _ => none
  | .replace v, _ => some (render v)
  | .update aops cops, .element t a cs =>
    (applyChildOps cops cs).map (fun cs2 => .element t (applyAttrOps aops a) cs2)
  | .update _ _, .text _ => none
termination_by p _ => sizeOf p

/-- Modelled from the spec: execution of a sequence of child-list operations in
order against a child list. -/
def applyChildOps : List ChildOp → List DNode → Option (List DNode)
  | [], cs => some cs
  | op :: rest, cs =>
    match applyChildOp op cs with
    | none => none
    | some cs2 => applyChildOps rest cs2
termination_by ops _ => sizeOf ops

/-- Modelled from the spec: execution of one child-list operation (the remove,
insert, move and recursive-patch primitives of section 6). -/
def applyChildOp : ChildOp → List DNode → Option (List DNode)
  | .remove i, cs => if i < cs.length then some (cs.eraseIdx i) else none
  | .insert i v, cs => if i ≤ cs.length then some (cs.take i ++ render v :: cs.drop i) else none
  | .move src dst, cs =>
    if src < cs.length ∧ dst < cs.length then
      some ((cs.eraseIdx src).take dst ++ cs.getD src (.text ("")) :: (cs.eraseIdx src).drop dst)
    else none
  | .patchAt i p, cs =>
    match cs[i]? with
    | none => none
    | some c =>
      match applyPatch p c with
      | none => none
      | some c2 => some (cs.set i c2)
termination_by op _ => sizeOf op

end

theorem applyAttrOps_append (xs ys : List AttrOp) (a : List (String × String)) :
    applyAttrOps (xs ++ ys) a = applyAttrOps ys (applyAttrOps xs a) := by
  simp [applyAttrOps, List.foldl_append]

theorem applyAttrOps_sorted (ops : List AttrOp) (a : List (String × String))
    (hs : AttrsSorted a) : AttrsSorted (applyAttrOps ops a) := by
  induction ops generalizing a with
  | nil => simpa [applyAttrOps] using hs
  | cons op rest ih =>
    simp only [applyAttrOps, List.foldl_cons]
    apply ih
    cases op with
    | set k v => exact insertAttr_sorted k v a hs
    | remove k => exact removeAttrKey_sorted k a hs

theorem lookupA_applyAttrOps_removes (ks : List String) (k : String)
    (a : List (String × String)) :
    lookupA k (applyAttrOps (ks.map AttrOp.remove) a) =
      if k ∈ ks then none else lookupA k a := by
  induction ks generalizing a with
  | nil => simp [applyAttrOps]
  | cons k0 rest ih =>
    simp only [List.map_cons, applyAttrOps, List.foldl_cons]
    have step : applyAttrOp a (AttrOp.remove k0) = removeAttrKey k0 a := rfl
    rw [show (List.foldl applyAttrOp (applyAttrOp a (AttrOp.remove k0)) (rest.map AttrOp.remove))
        = applyAttrOps (rest.map AttrOp.remove) (removeAttrKey k0 a) from rfl]
    rw [ih]
    by_cases h1 : k ∈ rest
    · simp [h1]
    · by_cases h2 : k = k0
      · simp [h1, h2, lookupA_removeAttrKey]
      · simp [h1, h2, lookupA_removeAttrKey]

theorem lookupA_applyAttrOps_sets (ps : List (String × String)) (k : String)
    (a an : List (String × String))
    (hps : ∀ p ∈ ps, lookupA p.1 an = some p.2) :
    lookupA k (applyAttrOps (ps.map (fun p => AttrOp.set p.1 p.2)) a) =
      if k ∈ ps.map Prod.fst then lookupA k an else lookupA k a := by
  induction ps generalizing a with
  | nil => simp [applyAttrOps]
  | cons p rest ih =>
    simp only [List.map_cons, applyAttrOps, List.foldl_cons]
    rw [show (List.foldl applyAttrOp (applyAttrOp a (AttrOp.set p.1 p.2))
          (rest.map (fun p => AttrOp.set p.1 p.2)))
        = applyAttrOps (rest.map (fun p => AttrOp.set p.1 p.2)) (insertAttr p.1 p.2 a) from rfl]
    rw [ih (insertAttr p.1 p.2 a) (fun q hq => hps q (List.mem_cons_of_mem _ hq))]
    by_cases h1 : k ∈ rest.map Prod.fst
    · simp [h1]
    · by_cases h2 : k = p.1
      · have hv : lookupA p.1 an = some p.2 := hps p (List.mem_cons_self _ _)
        simp [h1, h2, lookupA_insertAttr, hv]
      · simp [h1, h2, lookupA_insertAttr]

theorem lookupA_some_mem (k v : String) (l : List (String × String))
    (h : lookupA k l = some v) : (k, v) ∈ l := by
  induction l with
  | nil => simp [lookupA] at h
  | cons p rest ih =>
    by_cases h1 : p.1 = k
    · simp only [lookupA, if_pos h1] at h
      injection h with hv
      have hp : p = (k, v) := by
        cases p
        simp only at h1 hv
        simp [h1, hv]
      rw [← hp]
      exact List.mem_cons_self _ _
    · simp only [lookupA, if_neg h1] at h
      exact List.mem_cons_of_mem _ (ih h)

theorem lookupA_ne_none_of_key_mem (k : String) (l : List (String × String))
    (h : ∃ p ∈ l, p.1 = k) : lookupA k l ≠ none := by
  induction l with
  | nil => simp at h
  | cons p rest ih =>
    rcases h with ⟨q, hq, hk⟩
    simp only [List.mem_cons] at hq
    rcases hq with hq | hq
    · subst hq
      simp [lookupA, hk]
    · by_cases h1 : p.1 = k
      · simp [lookupA, h1]
      · simp only [lookupA, if_neg h1]
        exact ih ⟨q, hq, hk⟩

/-- Correctness of the attribute diff on lookups: replaying the diff of two
attribute lists against the canonical form of the old list yields the lookups
of the new list. -/
theorem diffAttrs_lookup (old new : List (String × String)) (k : String) :
    lookupA k (applyAttrOps (diffAttrs old new) (normAttrs old)) = lookupA k new := by
  unfold diffAttrs
  rw [applyAttrOps_append]
  have hremoves :
      (old.filter (fun p => (lookupA p.1 new).isNone)).map (fun p => AttrOp.remove p.1)
        = ((old.filter (fun p => (lookupA p.1 new).isNone)).map Prod.fst).map AttrOp.remove := by
    simp [List.map_map]
  rw [hremoves]
  set ps := new.filter (fun p =>
      lookupA p.1 new == some p.2 && !(lookupA p.1 old == some p.2)) with hps
  have hpsval : ∀ p ∈ ps, lookupA p.1 new = some p.2 := by
    intro p hp
    rw [hps] at hp
    have := List.of_mem_filter hp
    simp only [Bool.and_eq_true, beq_iff_eq] at this
    exact this.1
  rw [lookupA_applyAttrOps_sets ps k _ new hpsval]
  rw [lookupA_applyAttrOps_removes]
  by_cases hset : k ∈ ps.map Prod.fst
  · simp [hset]
  · simp only [if_neg hset]
    cases hLn : lookupA k new with
    | some v =>
      by_cases hLo : lookupA k old = some v
      · have hnotrem : ¬ (k ∈ (old.filter (fun p => (lookupA p.1 new).isNone)).map Prod.fst) := by
          intro hmem
          simp only [List.mem_map] at hmem
          rcases hmem with ⟨p, hp, hpk⟩
          have hfil := List.of_mem_filter hp
          rw [hpk, hLn] at hfil
          simp at hfil
        rw [if_neg hnotrem, lookupA_normAttrs, hLo]
      · exfalso
        apply hset
        have hmem : (k, v) ∈ new := lookupA_some_mem k v new hLn
        have hin : (k, v) ∈ ps := by
          rw [hps]
          apply List.mem_filter_of_mem hmem
          simp only [Bool.and_eq_true, beq_iff_eq, Bool.not_eq_true', beq_eq_false_iff_ne,
            ne_eq]
          exact ⟨hLn, hLo⟩
        exact List.mem_map_of_mem Prod.fst hin
    | none =>
      cases hLo : lookupA k old with
      | some w =>
        have hrem : k ∈ (old.filter (fun p => (lookupA p.1 new).isNone)).map Prod.fst := by
          have hmem : (k, w) ∈ old := lookupA_some_mem k w old hLo
          have hin : (k, w) ∈ old.filter (fun p => (lookupA p.1 new).isNone) := by
            apply List.mem_filter_of_mem hmem
            simp [hLn]
          exact List.mem_map_of_mem Prod.fst hin
        rw [if_pos hrem]
      | none =>
        have hnotrem : ¬ (k ∈ (old.filter (fun p => (lookupA p.1 new).isNone)).map Prod.fst) := by
          intro hmem
          simp only [List.mem_map] at hmem
          rcases hmem with ⟨p, hp, hpk⟩
          have hpm := List.mem_of_mem_filter hp
          have := lookupA_ne_none_of_key_mem k old ⟨p, hpm, hpk⟩
          exact this hLo
        rw [if_neg hnotrem, lookupA_normAttrs, hLo]

/-- Correctness of the attribute diff: replaying the diff of two attribute
lists against the canonical form of the old list yields exactly the canonical
form of the new list. -/
theorem diffAttrs_spec (old new : List (String × String)) :
    applyAttrOps (diffAttrs old new) (normAttrs old) = normAttrs new := by
  apply attrs_ext
  · exact applyAttrOps_sorted _ _ (normAttrs_sorted old)
  · exact normAttrs_sorted new
  · intro k
    rw [diffAttrs_lookup, lookupA_normAttrs]

theorem applyChildOps_append (a b : List ChildOp) (cs : List DNode) :
    applyChildOps (a ++ b) cs =
      match applyChildOps a cs with
      | none => none
      | some cs2 => applyChildOps b cs2 := by
  induction a generalizing cs with
  | nil => simp [applyChildOps]
  | cons op rest ih =>
    simp only [List.cons_append, applyChildOps]
    cases applyChildOp op cs with
    | none => simp
    | some cs2 => simp [ih]

/-- Sublist of the entries whose position satisfies the keep predicate. -/
def keepWith (p : Nat → Bool) : List DNode → List DNode
  | [] => []
  | x :: xs => if p 0 then x :: keepWith (fun i => p (i + 1)) xs else keepWith (fun i => p (i + 1)) xs

theorem keepWith_congr (p q : Nat → Bool) (l : List DNode) (h : ∀ i, p i = q i) :
    keepWith p l = keepWith q l := by
  induction l generalizing p q with
  | nil => rfl
  | cons x xs ih =>
    simp only [keepWith, h 0]
    rw [ih (fun i => p (i + 1)) (fun i => q (i + 1)) (fun i => h (i + 1))]

theorem keepWith_eq_filter_map (p : Nat → Bool) (l : List DNode) (d : DNode) :
    keepWith p l = ((List.range l.length).filter p).map (fun i => l.getD i d) := by
  induction l generalizing p with
  | nil => simp [keepWith]
  | cons x xs ih =>
    simp only [keepWith, List.length_cons, List.range_succ_eq_map]
    rw [List.filter_cons]
    have hmapfil : (List.filter p (List.map Nat.succ (List.range xs.length))).map
        (fun i => (x :: xs).getD i d)
        = (List.filter (fun i => p (i + 1)) (List.range xs.length)).map (fun i => xs.getD i d) := by
      rw [List.filter_map, List.map_map]
      apply List.map_congr_left
      intro i _
      rfl
    by_cases h0 : p 0 = true
    · rw [if_pos h0, if_pos h0]
      simp only [List.map_cons]
      congr 1
      rw [ih]
      exact hmapfil.symm
    · rw [if_neg h0, if_neg h0]
      rw [ih]
      exact hmapfil.symm

theorem applyChildOps_removes_shift (idxs : List Nat) (x : DNode) (xs : List DNode) :
    applyChildOps ((idxs.map (fun i => i + 1)).map ChildOp.remove) (x :: xs) =
      (applyChildOps (idxs.map ChildOp.remove) xs).map (fun l => x :: l) := by
  induction idxs generalizing xs with
  | nil => simp [applyChildOps]
  | cons i rest ih =>
    simp only [List.map_cons]
    simp only [applyChildOps]
    have hop : applyChildOp (ChildOp.remove (i + 1)) (x :: xs) =
        (applyChildOp (ChildOp.remove i) xs).map (fun l => x :: l) := by
      simp only [applyChildOp, List.length_cons]
      by_cases h : i < xs.length
      · simp [h, Nat.succ_lt_succ h, List.eraseIdx]
      · have h2 : ¬ (i + 1 < xs.length + 1) := by omega
        simp [h, h2]
    rw [hop]
    cases applyChildOp (ChildOp.remove i) xs with
    | none => simp
    | some cs2 =>
      simp only [Option.map_some']
      exact ih cs2

/-- Correctness of the removal pass: removing the positions failing the keep
predicate, in reverse order, keeps exactly the positions satisfying it. -/
theorem applyChildOps_removes (l : List DNode) (q : Nat → Bool) :
    applyChildOps (((List.range l.length).filter q).reverse.map ChildOp.remove) l
      = some (keepWith (fun i => !(q i)) l) := by
  induction l generalizing q with
  | nil => simp [applyChildOps, keepWith]
  | cons x xs ih =>
    simp only [List.length_cons, List.range_succ_eq_map, List.filter_cons]
    have hfil : List.filter q (List.map Nat.succ (List.range xs.length))
        = List.map (fun i => i + 1) (List.filter (fun i => q (i + 1)) (List.range xs.length)) := by
      rw [List.filter_map]
      apply List.map_congr_left
      intro i _
      rfl
    by_cases h0 : q 0 = true
    · rw [if_pos h0, hfil]
      simp only [List.reverse_cons, List.map_append]
      rw [applyChildOps_append]
      rw [← List.map_reverse]
      rw [applyChildOps_removes_shift]
      rw [ih (fun i => q (i + 1))]
      simp [applyChildOps, applyChildOp, keepWith, h0]
    · have h0f : q 0 = false := by
        cases hq : q 0
        · rfl
        · exact absurd hq h0
      rw [if_neg h0, hfil]
      rw [← List.map_reverse]
      rw [applyChildOps_removes_shift]
      rw [ih (fun i => q (i + 1))]
      simp [keepWith, h0f]

theorem eraseIdx_append_len {α : Type} (l₁ : List α) (y : α) (l₂ : List α) :
    (l₁ ++ y :: l₂).eraseIdx l₁.length = l₁ ++ l₂ := by
  induction l₁ with
  | nil => simp [List.eraseIdx]
  | cons x xs ih => simp [List.eraseIdx, ih]

theorem getD_append_len {α : Type} (l₁ : List α) (y : α) (l₂ : List α) (d : α) :
    (l₁ ++ y :: l₂).getD l₁.length d = y := by
  induction l₁ with
  | nil => simp [List.getD]
  | cons x xs ih => simpa [List.getD] using ih

theorem getElem?_append_len {α : Type} (l₁ : List α) (y : α) (l₂ : List α) :
    (l₁ ++ y :: l₂)[l₁.length]? = some y := by
  induction l₁ with
  | nil => simp
  | cons x xs ih => simpa using ih

theorem set_append_len {α : Type} (l₁ : List α) (y z : α) (l₂ : List α) :
    (l₁ ++ y :: l₂).set l₁.length z = l₁ ++ z :: l₂ := by
  induction l₁ with
  | nil => simp
  | cons x xs ih => simp [ih]

theorem idxOf_decomp (i : Nat) (l : List Nat) (h : i ∈ l) :
    ∃ l₁ l₂, l = l₁ ++ i :: l₂ ∧ idxOf i l = l₁.length ∧
      removeElem i l = l₁ ++ l₂ ∧ ¬ (i ∈ l₁) := by
  induction l with
  | nil => simp at h
  | cons j t ih =>
    by_cases hj : j = i
    · refine ⟨[], t, ?_, ?_, ?_, ?_⟩
      · simp [hj]
      · simp [idxOf, hj]
      · simp [removeElem, hj]
      · simp
    · have hmem : i ∈ t := by
        rcases List.mem_cons.mp h with h | h
        · exact absurd h.symm hj
        · exact h
      rcases ih hmem with ⟨l₁, l₂, he, hidx, hrem, hnot⟩
      refine ⟨j :: l₁, l₂, ?_, ?_, ?_, ?_⟩
      · simp [he]
      · simp [idxOf, hj, hidx]
      · simp [removeElem, hj, hrem]
      · simp only [List.mem_cons, not_or]
        exact ⟨fun hh => hj hh.symm, hnot⟩

theorem applyChildOp_insert (done rest : List DNode) (v : VNode) :
    applyChildOp (ChildOp.insert done.length v) (done ++ rest)
      = some (done ++ render v :: rest) := by
  simp only [applyChildOp]
  have hle : done.length ≤ (done ++ rest).length := by simp
  rw [if_pos hle, List.take_left, List.drop_left]

theorem applyChildOp_move (done p₁ : List DNode) (y : DNode) (p₂ : List DNode) :
    applyChildOp (ChildOp.move (done.length + p₁.length) done.length)
        (done ++ (p₁ ++ y :: p₂))
      = some (done ++ y :: (p₁ ++ p₂)) := by
  simp only [applyChildOp]
  have hsrc : done.length + p₁.length < (done ++ (p₁ ++ y :: p₂)).length := by
    simp only [List.length_append, List.length_cons]; omega
  have hdst : done.length < (done ++ (p₁ ++ y :: p₂)).length := by
    simp only [List.length_append, List.length_cons]; omega
  rw [if_pos ⟨hsrc, hdst⟩]
  have herase : (done ++ (p₁ ++ y :: p₂)).eraseIdx (done.length + p₁.length)
      = done ++ (p₁ ++ p₂) := by
    have h1 : done ++ (p₁ ++ y :: p₂) = (done ++ p₁) ++ y :: p₂ := by simp
    have h2 : done.length + p₁.length = (done ++ p₁).length := by simp
    rw [h1, h2, eraseIdx_append_len]
    simp
  have hget : (done ++ (p₁ ++ y :: p₂)).getD (done.length + p₁.length) (DNode.text (""))
      = y := by
    have h1 : done ++ (p₁ ++ y :: p₂) = (done ++ p₁) ++ y :: p₂ := by simp
    have h2 : done.length + p₁.length = (done ++ p₁).length := by simp
    rw [h1, h2, getD_append_len]
  rw [herase, hget, List.take_left, List.drop_left]

theorem applyChildOp_patchOk (done : List DNode) (y : DNode) (rest : List DNode)
    (p : Patch) (y2 : DNode) (h : applyPatch p y = some y2) :
    applyChildOp (ChildOp.patchAt done.length p) (done ++ y :: rest)
      = some (done ++ y2 :: rest) := by
  simp only [applyChildOp, getElem?_append_len, h, set_append_len]

theorem mem_filterMap_id (i : Nat) (ms : List (Option Nat)) :
    i ∈ ms.filterMap id ↔ some i ∈ ms := by
  simp [List.mem_filterMap]

theorem applyChildOps_append_some (a b : List ChildOp) (cs cs2 : List DNode)
    (h : applyChildOps a cs = some cs2) :
    applyChildOps (a ++ b) cs = applyChildOps b cs2 := by
  rw [applyChildOps_append, h]

theorem applyChildOps_single (op : ChildOp) (cs cs2 : List DNode)
    (h : applyChildOp op cs = some cs2) :
    applyChildOps [op] cs = some cs2 := by
  simp [applyChildOps, h]

theorem diff_eq_keep (o n : VNode) (h : diff o n = .keep) : o = n := by
  by_cases he : o = n
  · exact he
  · exfalso
    unfold diff at h
    rw [if_neg he] at h
    cases o with
    | text s =>
      cases n with
      | text t => simp at h
      | element t2 a2 k2 c2 => simp at h
    | element t1 a1 k1 c1 =>
      cases n with
      | text t => simp at h
      | element t2 a2 k2 c2 =>
        simp only at h
        split at h
        · simp at h
        · simp at h

/-- Correctness of the arrangement pass: starting from the already arranged
prefix followed by the surviving matched old children in old order, replaying
the arrangement operations produces the arranged prefix followed by the
renderings of the new children, provided every new child satisfies the
roundtrip property against every old node. -/
theorem arrangeOps_spec (olds : List VNode) :
    ∀ (news : List VNode) (ms : List (Option Nat)) (pending : List Nat) (done : List DNode),
    ms.length = news.length →
    pending.Nodup →
    (∀ i, i ∈ pending ↔ some i ∈ ms) →
    (ms.filterMap id).Nodup →
    (∀ n ∈ news, ∀ o : VNode, applyPatch (diff o n) (render o) = some (render n)) →
    applyChildOps (arrangeOps olds done.length news ms pending)
        (done ++ pending.map (fun i2 => render (olds.getD i2 (.text ("")))))
      = some (done ++ news.map render) := by
  intro news
  induction news with
  | nil =>
    intro ms pending done hlen hnd hmem hsomes hpatches
    have hpe : pending = [] := by
      apply List.eq_nil_iff_forall_not_mem.mpr
      intro i hi
      have h2 := (hmem i).mp hi
      have h3 : ms = [] := List.length_eq_zero.mp (by simpa using hlen)
      rw [h3] at h2
      simp at h2
    subst hpe
    simp [arrangeOps, applyChildOps]
  | cons n rest ih =>
    intro ms pending done hlen hnd hmem hsomes hpatches
    cases ms with
    | nil => simp at hlen
    | cons m mrest =>
      have hlen2 : mrest.length = rest.length := by simpa using hlen
      have hpn : ∀ n2 ∈ rest, ∀ o : VNode,
          applyPatch (diff o n2) (render o) = some (render n2) :=
        fun n2 h2 => hpatches n2 (List.mem_cons_of_mem _ h2)
      cases m with
      | none =>
        simp only [arrangeOps]
        rw [show applyChildOps
              (ChildOp.insert done.length n ::
                arrangeOps olds (done.length + 1) rest mrest pending)
              (done ++ pending.map (fun i2 => render (olds.getD i2 (.text ("")))))
            = applyChildOps (arrangeOps olds (done.length + 1) rest mrest pending)
              (done ++ render n :: pending.map (fun i2 => render (olds.getD i2 (.text ("")))))
          from by
            simp only [applyChildOps]
            rw [applyChildOp_insert]]
        have hassoc : done ++ render n :: pending.map (fun i2 => render (olds.getD i2 (.text (""))))
            = (done ++ [render n]) ++ pending.map (fun i2 => render (olds.getD i2 (.text ("")))) := by
          simp
        rw [hassoc]
        rw [show done.length + 1 = (done ++ [render n]).length from by simp]
        have hmem2 : ∀ i, i ∈ pending ↔ some i ∈ mrest := by
          intro i
          rw [hmem i]
          simp
        have hsomes2 : (mrest.filterMap id).Nodup := by
          simpa [List.filterMap_cons] using hsomes
        rw [ih mrest pending (done ++ [render n]) hlen2 hnd hmem2 hsomes2 hpn]
        simp
      | some i =>
        have hipend : i ∈ pending := (hmem i).mpr (List.mem_cons_self _ _)
        rcases idxOf_decomp i pending hipend with ⟨l₁, l₂, hpe, hidx, hrem, hil₁⟩
        have hnd2 : (l₁ ++ i :: l₂).Nodup := hpe ▸ hnd
        have hil₂ : ¬ (i ∈ l₂) := by
          have h2 : (i :: l₂).Nodup := List.Nodup.of_append_right hnd2
          exact (List.nodup_cons.mp h2).1
        have hsomes2 : (mrest.filterMap id).Nodup ∧ ¬ (i ∈ mrest.filterMap id) := by
          have h2 : (i :: mrest.filterMap id).Nodup := by
            simpa [List.filterMap_cons] using hsomes
          exact ⟨(List.nodup_cons.mp h2).2, (List.nodup_cons.mp h2).1⟩
        have hPmap : pending.map (fun i2 => render (olds.getD i2 (.text (""))))
            = l₁.map (fun i2 => render (olds.getD i2 (.text ("")))) ++
              render (olds.getD i (.text (""))) ::
              l₂.map (fun i2 => render (olds.getD i2 (.text ("")))) := by
          rw [hpe]
          simp
        have hpatch1 : applyPatch (diff (olds.getD i (.text (""))) n)
            (render (olds.getD i (.text ("")))) = some (render n) :=
          hpatches n (List.mem_cons_self _ _) _
        simp only [arrangeOps]
        rw [hrem]
        -- the move step
        have hmove : applyChildOps
            (if idxOf i pending = 0 then [] else
              [ChildOp.move (done.length + idxOf i pending) done.length])
            (done ++ pending.map (fun i2 => render (olds.getD i2 (.text ("")))))
            = some (done ++ render (olds.getD i (.text (""))) ::
                (l₁ ++ l₂).map (fun i2 => render (olds.getD i2 (.text (""))))) := by
          by_cases hpos : idxOf i pending = 0
          · have hl₁ : l₁ = [] := List.length_eq_zero.mp (by omega)
            rw [if_pos hpos]
            rw [hPmap, hl₁]
            simp [applyChildOps]
          · rw [if_neg hpos, hidx]
            apply applyChildOps_single
            rw [hPmap]
            rw [show done.length + l₁.length
                = done.length + (l₁.map (fun i2 => render (olds.getD i2 (.text ("")))) ).length
              from by simp]
            rw [applyChildOp_move]
            simp
        rw [applyChildOps_append_some _ _ _ _ hmove]
        -- the patch step
        have hpatchstep : applyChildOps
            (patchOpFor done.length (diff (olds.getD i (.text (""))) n))
            (done ++ render (olds.getD i (.text (""))) ::
              (l₁ ++ l₂).map (fun i2 => render (olds.getD i2 (.text ("")))))
            = some (done ++ render n ::
              (l₁ ++ l₂).map (fun i2 => render (olds.getD i2 (.text (""))))) := by
          cases hdk : diff (olds.getD i (.text (""))) n with
          | keep =>
            have hon : olds.getD i (.text ("")) = n := diff_eq_keep _ _ hdk
            rw [hon]
            simp [patchOpFor, applyChildOps]
          | setText s =>
            rw [hdk] at hpatch1
            exact applyChildOps_single _ _ _
              (applyChildOp_patchOk done _ _ _ _ hpatch1)
          | replace v =>
            rw [hdk] at hpatch1
            exact applyChildOps_single _ _ _
              (applyChildOp_patchOk done _ _ _ _ hpatch1)
          | update aops cops =>
            rw [hdk] at hpatch1
            exact applyChildOps_single _ _ _
              (applyChildOp_patchOk done _ _ _ _ hpatch1)
        rw [applyChildOps_append_some _ _ _ _ hpatchstep]
        -- the recursive step
        have hassoc : done ++ render n ::
              (l₁ ++ l₂).map (fun i2 => render (olds.getD i2 (.text (""))))
            = (done ++ [render n]) ++
              (l₁ ++ l₂).map (fun i2 => render (olds.getD i2 (.text ("")))) := by
          simp
        rw [hassoc]
        rw [show done.length + 1 = (done ++ [render n]).length from by simp]
        have hnd3 : (l₁ ++ l₂).Nodup :=
          List.Nodup.sublist (List.Sublist.append_left (List.sublist_cons_self i l₂) l₁) hnd2
        have hmem3 : ∀ i2, i2 ∈ l₁ ++ l₂ ↔ some i2 ∈ mrest := by
          intro i2
          by_cases hi2 : i2 = i
          · subst hi2
            constructor
            · intro h2
              rcases List.mem_append.mp h2 with h2 | h2
              · exact absurd h2 hil₁
              · exact absurd h2 hil₂
            · intro h2
              exfalso
              exact hsomes2.2 ((mem_filterMap_id i2 mrest).mpr h2)
          · constructor
            · intro h2
              have h5 : i2 ∈ pending := by
                rw [hpe]
                rcases List.mem_append.mp h2 with h2 | h2
                · exact List.mem_append.mpr (Or.inl h2)
                · exact List.mem_append.mpr (Or.inr (List.mem_cons_of_mem _ h2))
              have h6 := (hmem i2).mp h5
              rcases List.mem_cons.mp h6 with h6 | h6
              · exact absurd (Option.some.inj h6) hi2
              · exact h6
            · intro h2
              have h5 := (hmem i2).mpr (List.mem_cons_of_mem _ h2)
              rw [hpe] at h5
              rcases List.mem_append.mp h5 with h5 | h5
              · exact List.mem_append.mpr (Or.inl h5)
              · rcases List.mem_cons.mp h5 with h5 | h5
                · exact absurd h5 hi2
                · exact List.mem_append.mpr (Or.inr h5)
        rw [ih mrest (l₁ ++ l₂) (done ++ [render n]) hlen2 hnd3 hmem3 hsomes2.1 hpn]
        simp

theorem getD_renderList (olds : List VNode) (i : Nat) (h : i < olds.length) :
    (renderList olds).getD i (.text ("")) = render (olds.getD i (.text (""))) := by
  rw [renderList_eq_map]
  simp [List.getD, List.getElem?_map, List.getElem?_eq_getElem h]

/-- Correctness of children reconciliation: replaying the child operations of
diffChildren against the renderings of the old children yields the renderings
of the new children, provided every new child satisfies the roundtrip property
against every old node. -/
theorem diffChildren_spec (olds news : List VNode)
    (hpatches : ∀ n ∈ news, ∀ o : VNode, applyPatch (diff o n) (render o) = some (render n)) :
    applyChildOps (diffChildren olds news) (renderList olds) = some (renderList news) := by
  simp only [diffChildren]
  have hlenr : (renderList olds).length = olds.length := renderList_length olds
  rcases computeMatchesGo_sound olds news 0 [] with ⟨hnodup, hvalid⟩
  have hremoves : applyChildOps
      (((List.range olds.length).filter
        (fun i => !(decide ((some i) ∈ computeMatches olds news)))).reverse.map ChildOp.remove)
      (renderList olds)
      = some (((List.range olds.length).filter
          (fun i => decide ((some i) ∈ computeMatches olds news))).map
            (fun i => render (olds.getD i (.text (""))))) := by
    rw [← hlenr]
    rw [applyChildOps_removes (renderList olds)
      (fun i => !(decide ((some i) ∈ computeMatches olds news)))]
    congr 1
    rw [keepWith_congr _ (fun i => decide ((some i) ∈ computeMatches olds news))
      (renderList olds) (fun i => Bool.not_not _)]
    rw [keepWith_eq_filter_map _ _ (.text (""))]
    rw [hlenr]
    apply List.map_congr_left
    intro i hi
    have hir : i ∈ List.range olds.length := List.mem_of_mem_filter hi
    exact getD_renderList olds i (List.mem_range.mp hir)
  rw [applyChildOps_append_some _ _ _ _ hremoves]
  have hlen : (computeMatches olds news).length = news.length :=
    computeMatchesGo_length olds 0 [] news
  have hnd : ((List.range olds.length).filter
      (fun i => decide ((some i) ∈ computeMatches olds news))).Nodup :=
    List.Nodup.filter _ (List.nodup_range _)
  have hmem : ∀ i, i ∈ (List.range olds.length).filter
      (fun i => decide ((some i) ∈ computeMatches olds news)) ↔
      some i ∈ computeMatches olds news := by
    intro i
    constructor
    · intro h2
      have := List.of_mem_filter h2
      simpa using this
    · intro h2
      apply List.mem_filter.mpr
      refine ⟨?_, by simpa using h2⟩
      apply List.mem_range.mpr
      have := hvalid i ((mem_filterMap_id i _).mpr h2)
      exact this.1
  have harr := arrangeOps_spec olds news (computeMatches olds news)
    ((List.range olds.length).filter (fun i => decide ((some i) ∈ computeMatches olds news)))
    [] hlen hnd hmem hnodup hpatches
  simp only [List.length_nil, List.nil_append] at harr
  rw [harr]
  rw [renderList_eq_map]

/-- The roundtrip property of the Differ at the level of structured patches:
replaying the patch computed for (old, new) against the rendering of old
produces exactly the rendering of new. -/
theorem patch_roundtrip : ∀ (new old : VNode),
    applyPatch (diff old new) (render old) = some (render new) := by
  have main : ∀ (N : Nat) (new : VNode), sizeOf new ≤ N → ∀ (old : VNode),
      applyPatch (diff old new) (render old) = some (render new) := by
    intro N
    induction N using Nat.strong_induction_on with
    | _ N ih =>
      intro new hsz old
      by_cases he : old = new
      · subst he
        rw [show diff old old = Patch.keep from by
          unfold diff
          rw [if_pos rfl]]
        simp [applyPatch]
      · cases old with
        | text s =>
          cases new with
          | text t =>
            rw [show diff (.text s) (.text t) = Patch.setText t from by
              unfold diff
              rw [if_neg he]]
            simp [applyPatch, render]
          | element t2 a2 k2 c2 =>
            rw [show diff (.text s) (.element t2 a2 k2 c2)
                = Patch.replace (.element t2 a2 k2 c2) from by
              unfold diff
              rw [if_neg he]]
            simp [applyPatch]
        | element t1 a1 k1 c1 =>
          cases new with
          | text t =>
            rw [show diff (.element t1 a1 k1 c1) (.text t) = Patch.replace (.text t) from by
              unfold diff
              rw [if_neg he]]
            simp [applyPatch]
          | element t2 a2 k2 c2 =>
            by_cases ht : t1 = t2
            · rw [show diff (.element t1 a1 k1 c1) (.element t2 a2 k2 c2)
                  = Patch.update (diffAttrs a1 a2) (diffChildren c1 c2) from by
                unfold diff
                rw [if_neg he]
                simp only
                rw [if_pos ht]]
              have hchild : ∀ n ∈ c2, ∀ o : VNode,
                  applyPatch (diff o n) (render o) = some (render n) := by
                intro n hn o
                have hlt : sizeOf n < sizeOf (VNode.element t2 a2 k2 c2) := by
                  have h2 : sizeOf n < sizeOf c2 := List.sizeOf_lt_of_mem hn
                  simp only [VNode.element.sizeOf_spec]
                  omega
                exact ih (sizeOf n) (by omega) n (le_refl _) o
              have hc := diffChildren_spec c1 c2 hchild
              rw [show render (VNode.element t1 a1 k1 c1)
                  = DNode.element t1 (normAttrs a1) (renderList c1) from by simp [render]]
              simp only [applyPatch]
              rw [hc]
              rw [show applyAttrOps (diffAttrs a1 a2) (normAttrs a1) = normAttrs a2 from
                diffAttrs_spec a1 a2]
              rw [show render (VNode.element t2 a2 k2 c2)
                  = DNode.element t2 (normAttrs a2) (renderList c2) from by simp [render]]
              rw [ht]
              simp
            · rw [show diff (.element t1 a1 k1 c1) (.element t2 a2 k2 c2)
                  = Patch.replace (.element t2 a2 k2 c2) from by
                unfold diff
                rw [if_neg he]
                simp only
                rw [if_neg ht]]
              simp [applyPatch]
  intro new old
  exact main (sizeOf new) new (le_refl _) old

/-- Modelled from the spec: a primitive mutation operation of the document
driver interface (spec section 6), addressed by the path of child indices from
the root of the subtree being reconciled. Creation of fresh subtrees is folded
into the carrying operation (replace or insert), matching the driver returning
handles for newly created nodes. -/
inductive Op where
  | opSetText (path : List Nat) (s : String) : Op
  | opReplace (path : List Nat) (v : VNode) : Op
  | opSetAttr (path : List Nat) (k v : String) : Op
  | opRemoveAttr (path : List Nat) (k : String) : Op
  | opRemoveChild (path : List Nat) (i : Nat) : Op
  | opInsertChild (path : List Nat) (i : Nat) (v : VNode) : Op
  | opMoveChild (path : List Nat) (src dst : Nat) : Op

/-- Navigation of a live document to the node addressed by a path and
application of a local action there. -/
def modifyAt : List Nat → (DNode → Option DNode) → DNode → Option DNode
  | [], f, d => f d
  | i :: rest, f, .element t a cs =>
    (cs[i]?).bind (fun c => (modifyAt rest f c).map (fun c2 => .element t a (cs.set i c2)))
  | _ :: _, _, .text _ => none

/-- Local action of a text rewrite. -/
def nodeSetText (s : String) : DNode → Option DNode
  | .text _ => some (.text s)
  | .element _ _ _ => none

/-- Local action of a set_attribute primitive. -/
def nodeSetAttr (k v : String) : DNode → Option DNode
  | .element t a cs => some (.element t (insertAttr k v a) cs)
  | .text _ => none

/-- Local action of a remove_attribute primitive. -/
def nodeRemoveAttr (k : String) : DNode → Option DNode
  | .element t a cs => some (.element t (removeAttrKey k a) cs)
  | .text _ => none

/-- Lifting of a child-list transformation to a local node action. -/
def nodeChild (g : List DNode → Option (List DNode)) : DNode → Option DNode
  | .element t a cs => (g cs).map (fun cs2 => .element t a cs2)
  | .text _ => none

/-- Modelled from the spec: execution of one primitive mutation operation by
the live-document driver. -/
def applyOp (d : DNode) : Op → Option DNode
  | .opSetText path s => modifyAt path (nodeSetText s) d
  | .opReplace path v => modifyAt path (fun _ => some (render v)) d
  | .opSetAttr path k v => modifyAt path (nodeSetAttr k v) d
  | .opRemoveAttr path k => modifyAt path (nodeRemoveAttr k) d
  | .opRemoveChild path i => modifyAt path (nodeChild (applyChildOp (.remove i))) d
  | .opInsertChild path i v => modifyAt path (nodeChild (applyChildOp (.insert i v))) d
  | .opMoveChild path src dst => modifyAt path (nodeChild (applyChildOp (.move src dst))) d

/-- Modelled from the spec: execution of an operation sequence in order, each
operation against the document produced by the previous one, with no other
mutation interleaved. -/
def applyOps : List Op → DNode → Option DNode
  | [], d => some d
  | op :: rest, d =>
    match applyOp d op with
    | none => none
    | some d2 => applyOps rest d2

/-- Translation of an attribute operation to a primitive addressed operation. -/
def attrOpAt (path : List Nat) : AttrOp → Op
  | .set k v => .opSetAttr path k v
  | .remove k => .opRemoveAttr path k

mutual

/-- Flattening of a structured patch to the ordered primitive operation
sequence the Differ hands to the document driver. -/
def patchToOps (path : List Nat) : Patch → List Op
  | .keep => []
  | .setText s => [.opSetText path s]
  | .replace v => [.opReplace path v]
  | .update aops cops => aops.map (attrOpAt path) ++ childOpsToOps path cops
termination_by p => sizeOf p

/-- Flattening of a child-operation list. -/
def childOpsToOps (path : List Nat) : List ChildOp → List Op
  | [] => []
  | op :: rest => childOpToOps path op ++ childOpsToOps path rest
termination_by ops => sizeOf ops

/-- Flattening of one child operation; a recursive patch extends the path by
the child position. -/
def childOpToOps (path : List Nat) : ChildOp → List Op
  | .remove i => [.opRemoveChild path i]
  | .insert i v => [.opInsertChild path i v]
  | .move src dst => [.opMoveChild path src dst]
  | .patchAt i p => patchToOps (path ++ [i]) p
termination_by op => sizeOf op

end

/-- Modelled from the spec: the operation sequence of the Differ for a pair of
virtual trees, as handed in order to the live-document driver (spec section
4.2 guarantee). -/
def diffOps (old new : VNode) : List Op := patchToOps [] (diff old new)

theorem applyOps_append (a b : List Op) (d : DNode) :
    applyOps (a ++ b) d =
      match applyOps a d with
      | none => none
      | some d2 => applyOps b d2 := by
  induction a generalizing d with
  | nil => simp [applyOps]
  | cons op rest ih =>
    simp only [List.cons_append, applyOps]
    cases applyOp d op with
    | none => simp
    | some d2 => simp [ih]

theorem applyOps_append_some (a b : List Op) (d d2 : DNode)
    (h : applyOps a d = some d2) :
    applyOps (a ++ b) d = applyOps b d2 := by
  rw [applyOps_append, h]

theorem set_getElem?_self {α : Type} (cs : List α) (i : Nat) (c : α)
    (h : cs[i]? = some c) : cs.set i c = cs := by
  induction cs generalizing i with
  | nil => simp at h
  | cons x xs ih =>
    cases i with
    | zero =>
      simp only [List.getElem?_cons_zero] at h
      injection h with h
      simp [h]
    | succ i =>
      simp only [List.getElem?_cons_succ] at h
      simp [ih i h]

theorem modifyAt_id_like (f : DNode → Option DNode)
    (hf : ∀ x, f x = some x ∨ f x = none) :
    ∀ (path : List Nat) (d d2 : DNode), modifyAt path f d = some d2 → d2 = d := by
  intro path
  induction path with
  | nil =>
    intro d d2 h
    simp only [modifyAt] at h
    rcases hf d with h2 | h2 <;> rw [h2] at h
    · injection h with h
      exact h.symm
    · simp at h
  | cons i rest ih =>
    intro d d2 h
    cases d with
    | text s => simp [modifyAt] at h
    | element t a cs =>
      simp only [modifyAt] at h
      cases hc : cs[i]? with
      | none => rw [hc] at h; simp at h
      | some c =>
        rw [hc] at h
        simp only [Option.some_bind] at h
        cases hm : modifyAt rest f c with
        | none => rw [hm] at h; simp at h
        | some c2 =>
          rw [hm] at h
          simp only [Option.map_some'] at h
          injection h with h
          have hcc : c2 = c := ih c c2 hm
          rw [← h, hcc, set_getElem?_self cs i c hc]

theorem modifyAt_comp (f g : DNode → Option DNode) :
    ∀ (path : List Nat) (d : DNode),
    modifyAt path (fun x => match f x with | none => none | some y => g y) d =
      match modifyAt path f d with
      | none => none
      | some y => modifyAt path g y := by
  intro path
  induction path with
  | nil =>
    intro d
    simp only [modifyAt]
  | cons i rest ih =>
    intro d
    cases d with
    | text s => simp [modifyAt]
    | element t a cs =>
      simp only [modifyAt]
      cases hc : cs[i]? with
      | none => simp
      | some c =>
        simp only [Option.some_bind]
        rw [ih c]
        cases hm : modifyAt rest f c with
        | none => simp
        | some c2 =>
          have hlt : i < cs.length := by
            by_contra hge
            rw [List.getElem?_eq_none (by omega)] at hc
            simp at hc
          have hset : (cs.set i c2)[i]? = some c2 := List.getElem?_set_self hlt
          simp [modifyAt, hset, List.set_set]

theorem modifyAt_append (p q : List Nat) (f : DNode → Option DNode) :
    ∀ (d : DNode), modifyAt (p ++ q) f d = modifyAt p (modifyAt q f) d := by
  induction p with
  | nil => intro d; simp [modifyAt]
  | cons i rest ih =>
    intro d
    cases d with
    | text s => simp [modifyAt]
    | element t a cs =>
      simp only [List.cons_append, modifyAt]
      cases cs[i]? with
      | none => rfl
      | some c =>
        simp only [Option.some_bind, List.append_eq]
        rw [ih c]

/-- Combined local attribute action of an attribute-operation list. -/
def attrStep (aops : List AttrOp) : DNode → Option DNode
  | .element t a cs => some (.element t (applyAttrOps aops a) cs)
  | .text s => if aops.isEmpty then some (.text s) else none

/-- Local action of one attribute operation. -/
def attrStep1 (aop : AttrOp) : DNode → Option DNode :=
  match aop with
  | .set k v => nodeSetAttr k v
  | .remove k => nodeRemoveAttr k

/-- Combined local child-list action of a child-operation list. -/
def childStep (cops : List ChildOp) : DNode → Option DNode :=
  nodeChild (applyChildOps cops)

/-- Local action of one child operation. -/
def childStep1 (op : ChildOp) : DNode → Option DNode :=
  nodeChild (applyChildOp op)

theorem attrStep_nil : attrStep [] = fun x => some x := by
  funext x
  cases x with
  | text s => simp [attrStep]
  | element t a cs => simp [attrStep, applyAttrOps]

theorem attrStep_cons (aop : AttrOp) (rest : List AttrOp) :
    attrStep (aop :: rest) = fun x =>
      match attrStep1 aop x with
      | none => none
      | some y => attrStep rest y := by
  funext x
  cases x with
  | text s =>
    cases aop with
    | set k v => simp [attrStep, attrStep1, nodeSetAttr]
    | remove k => simp [attrStep, attrStep1, nodeRemoveAttr]
  | element t a cs =>
    cases aop with
    | set k v => simp [attrStep, attrStep1, nodeSetAttr, applyAttrOps, applyAttrOp]
    | remove k => simp [attrStep, attrStep1, nodeRemoveAttr, applyAttrOps, applyAttrOp]

theorem childStep_cons (op : ChildOp) (rest : List ChildOp) :
    childStep (op :: rest) = fun x =>
      match childStep1 op x with
      | none => none
      | some y => childStep rest y := by
  funext x
  cases x with
  | text s => simp [childStep, childStep1, nodeChild]
  | element t a cs =>
    simp only [childStep, childStep1, nodeChild]
    rw [show applyChildOps (op :: rest) cs =
        match applyChildOp op cs with
        | none => none
        | some cs2 => applyChildOps rest cs2 from by simp [applyChildOps]]
    cases applyChildOp op cs with
    | none => simp
    | some cs2 => simp

theorem childStep1_patchAt (i : Nat) (p : Patch) :
    childStep1 (ChildOp.patchAt i p) = modifyAt [i] (applyPatch p) := by
  funext x
  cases x with
  | text s => simp [childStep1, nodeChild, modifyAt]
  | element t a cs =>
    simp only [childStep1, nodeChild, modifyAt]
    rw [show applyChildOp (ChildOp.patchAt i p) cs =
        match cs[i]? with
        | none => none
        | some c =>
          match applyPatch p c with
          | none => none
          | some c2 => some (cs.set i c2) from by simp [applyChildOp]]
    cases cs[i]? with
    | none => simp
    | some c =>
      simp only [Option.some_bind]
      cases applyPatch p c with
      | none => simp
      | some c2 => simp

theorem attrOps_flat (aops : List AttrOp) :
    ∀ (path : List Nat) (d d2 : DNode),
    modifyAt path (attrStep aops) d = some d2 →
    applyOps (aops.map (attrOpAt path)) d = some d2 := by
  induction aops with
  | nil =>
    intro path d d2 h
    rw [attrStep_nil] at h
    have hd := modifyAt_id_like _ (fun x => Or.inl rfl) path d d2 h
    simp [applyOps, hd]
  | cons aop rest ih =>
    intro path d d2 h
    rw [attrStep_cons, modifyAt_comp] at h
    cases h1 : modifyAt path (attrStep1 aop) d with
    | none => rw [h1] at h; simp at h
    | some dmid =>
      rw [h1] at h
      have h2 : modifyAt path (attrStep rest) dmid = some d2 := h
      simp only [List.map_cons, applyOps]
      rw [show applyOp d (attrOpAt path aop) = modifyAt path (attrStep1 aop) d from by
        cases aop <;> rfl]
      rw [h1]
      exact ih path dmid d2 h2

/-- The flattening simulation: whenever applying a structured patch (or a
child-operation list) at a path succeeds on a document, replaying the
flattened primitive operation sequence on that document succeeds with the same
result. -/
theorem flatten_sim : ∀ (N : Nat),
    (∀ p : Patch, sizeOf p ≤ N → ∀ (path : List Nat) (d d2 : DNode),
      modifyAt path (applyPatch p) d = some d2 →
      applyOps (patchToOps path p) d = some d2) ∧
    (∀ cops : List ChildOp, sizeOf cops ≤ N → ∀ (path : List Nat) (d d2 : DNode),
      modifyAt path (childStep cops) d = some d2 →
      applyOps (childOpsToOps path cops) d = some d2) := by
  intro N
  induction N using Nat.strong_induction_on with
  | _ N ih =>
    constructor
    · intro p hp path d d2 h
      cases p with
      | keep =>
        have hpure : applyPatch Patch.keep = fun x => some x := by
          funext x
          simp [applyPatch]
        rw [hpure] at h
        have hd := modifyAt_id_like _ (fun x => Or.inl rfl) path d d2 h
        rw [show patchToOps path Patch.keep = [] from by simp [patchToOps]]
        simp [applyOps, hd]
      | setText s =>
        have heq : applyPatch (Patch.setText s) = nodeSetText s := by
          funext x
          cases x <;> simp [applyPatch, nodeSetText]
        rw [heq] at h
        rw [show patchToOps path (Patch.setText s) = [Op.opSetText path s] from by
          simp [patchToOps]]
        simp only [applyOps]
        rw [show applyOp d (Op.opSetText path s) = modifyAt path (nodeSetText s) d from rfl]
        rw [h]
      | replace v =>
        have heq : applyPatch (Patch.replace v) = fun _ => some (render v) := by
          funext x
          cases x <;> simp [applyPatch]
        rw [heq] at h
        rw [show patchToOps path (Patch.replace v) = [Op.opReplace path v] from by
          simp [patchToOps]]
        simp only [applyOps]
        rw [show applyOp d (Op.opReplace path v) = modifyAt path (fun _ => some (render v)) d
          from rfl]
        rw [h]
      | update aops cops =>
        have hcomp : applyPatch (Patch.update aops cops) = fun x =>
            match attrStep aops x with
            | none => none
            | some y => childStep cops y := by
          funext x
          cases x with
          | text s =>
            cases aops with
            | nil => simp [applyPatch, attrStep, childStep, nodeChild]
            | cons aop rest => simp [applyPatch, attrStep, childStep, nodeChild]
          | element t a cs =>
            simp [applyPatch, attrStep, childStep, nodeChild]
        rw [hcomp, modifyAt_comp] at h
        cases h1 : modifyAt path (attrStep aops) d with
        | none => rw [h1] at h; simp at h
        | some dmid =>
          rw [h1] at h
          have h2 : modifyAt path (childStep cops) dmid = some d2 := h
          rw [show patchToOps path (Patch.update aops cops)
              = aops.map (attrOpAt path) ++ childOpsToOps path cops from by
            simp [patchToOps]]
          rw [applyOps_append_some _ _ _ _ (attrOps_flat aops path d dmid h1)]
          have hszc : sizeOf cops < N := by
            have hlt : sizeOf cops < sizeOf (Patch.update aops cops) := by
              simp only [Patch.update.sizeOf_spec]
              omega
            omega
          exact (ih (sizeOf cops) hszc).2 cops (le_refl _) path dmid d2 h2
    · intro cops hc path d d2 h
      cases cops with
      | nil =>
        have hid : ∀ x, childStep ([] : List ChildOp) x = some x ∨
            childStep ([] : List ChildOp) x = none := by
          intro x
          cases x with
          | text s => exact Or.inr rfl
          | element t a cs =>
            left
            simp [childStep, nodeChild, applyChildOps]
        have hd := modifyAt_id_like _ hid path d d2 h
        rw [show childOpsToOps path ([] : List ChildOp) = [] from by simp [childOpsToOps]]
        simp [applyOps, hd]
      | cons op rest =>
        rw [childStep_cons, modifyAt_comp] at h
        cases h1 : modifyAt path (childStep1 op) d with
        | none => rw [h1] at h; simp at h
        | some dmid =>
          rw [h1] at h
          have h2 : modifyAt path (childStep rest) dmid = some d2 := h
          rw [show childOpsToOps path (op :: rest)
              = childOpToOps path op ++ childOpsToOps path rest from by
            simp [childOpsToOps]]
          have hflat1 : applyOps (childOpToOps path op) d = some dmid := by
            cases op with
            | remove i =>
              rw [show childOpToOps path (ChildOp.remove i) = [Op.opRemoveChild path i] from by
                simp [childOpToOps]]
              simp only [applyOps]
              rw [show applyOp d (Op.opRemoveChild path i)
                  = modifyAt path (childStep1 (ChildOp.remove i)) d from rfl]
              rw [h1]
            | insert i v =>
              rw [show childOpToOps path (ChildOp.insert i v)
                  = [Op.opInsertChild path i v] from by simp [childOpToOps]]
              simp only [applyOps]
              rw [show applyOp d (Op.opInsertChild path i v)
                  = modifyAt path (childStep1 (ChildOp.insert i v)) d from rfl]
              rw [h1]
            | move src dst =>
              rw [show childOpToOps path (ChildOp.move src dst)
                  = [Op.opMoveChild path src dst] from by simp [childOpToOps]]
              simp only [applyOps]
              rw [show applyOp d (Op.opMoveChild path src dst)
                  = modifyAt path (childStep1 (ChildOp.move src dst)) d from rfl]
              rw [h1]
            | patchAt i p =>
              rw [childStep1_patchAt, ← modifyAt_append] at h1
              rw [show childOpToOps path (ChildOp.patchAt i p)
                  = patchToOps (path ++ [i]) p from by simp [childOpToOps]]
              have hszp : sizeOf p < N := by
                have hlt1 : sizeOf p < sizeOf (ChildOp.patchAt i p) := by
                  simp only [ChildOp.patchAt.sizeOf_spec]
                  omega
                have hlt2 : sizeOf (ChildOp.patchAt i p)
                    < sizeOf (ChildOp.patchAt i p :: rest) := by
                  simp only [List.cons.sizeOf_spec]
                  omega
                omega
              exact (ih (sizeOf p) hszp).1 p (le_refl _) (path ++ [i]) d dmid h1
          rw [applyOps_append_some _ _ _ _ hflat1]
          have hszr : sizeOf rest < N := by
            have hlt : sizeOf rest < sizeOf (op :: rest) := by
              simp only [List.cons.sizeOf_spec]
              omega
            omega
          exact (ih (sizeOf rest) hszr).2 rest (le_refl _) path dmid d2 h2

theorem mem_zip_getElem (l1 : List VNode) (l2 : List (Option Nat)) (v : VNode)
    (w : Option Nat) (h : (v, w) ∈ l1.zip l2) :
    ∃ i, ∃ h1 : i < l1.length, ∃ h2 : i < l2.length, l1[i] = v ∧ l2[i] = w := by
  rcases List.getElem_of_mem h with ⟨i, hi, hget⟩
  have hlen : (l1.zip l2).length = min l1.length l2.length := List.length_zip l1 l2
  rw [List.getElem_zip] at hget
  rw [hlen] at hi
  refine ⟨i, by omega, by omega, ?_, ?_⟩
  · exact congrArg Prod.fst hget
  · exact congrArg Prod.snd hget

theorem key_mem_filterMap (olds : List VNode) (i : Nat) (k : String)
    (hi : i < olds.length) (hk : keyOf (olds.getD i (.text (""))) = some k) :
    some k ∈ olds.map keyOf := by
  rw [List.getD_eq_getElem olds _ hi] at hk
  rw [← hk]
  exact List.mem_map_of_mem keyOf (List.getElem_mem hi)

theorem getD_cons_zero {α : Type} (x : α) (xs : List α) (d : α) :
    (x :: xs).getD 0 d = x := rfl

theorem getD_cons_succ {α : Type} (x : α) (xs : List α) (i : Nat) (d : α) :
    (x :: xs).getD (i + 1) d = xs.getD i d := rfl

theorem keyOf_unique (olds : List VNode) (hnodup : (olds.filterMap keyOf).Nodup)
    (k : String) :
    ∀ i1 i2, i1 < olds.length → i2 < olds.length →
    keyOf (olds.getD i1 (.text (""))) = some k →
    keyOf (olds.getD i2 (.text (""))) = some k → i1 = i2 := by
  induction olds with
  | nil =>
    intro i1 i2 h1
    simp at h1
  | cons o rest ih =>
    intro i1 i2 h1 h2 hk1 hk2
    have hkmem : ∀ i, i < rest.length → keyOf (rest.getD i (.text (""))) = some k →
        k ∈ rest.filterMap keyOf := by
      intro i hi hk
      rw [List.getD_eq_getElem rest _ hi] at hk
      exact List.mem_filterMap.mpr ⟨rest[i], List.getElem_mem hi, hk⟩
    cases hko : keyOf o with
    | some k0 =>
      have hnodup2 : (k0 :: rest.filterMap keyOf).Nodup := by
        simpa [List.filterMap_cons, hko] using hnodup
      rcases List.nodup_cons.mp hnodup2 with ⟨hk0notin, hrestnodup⟩
      cases i1 with
      | zero =>
        cases i2 with
        | zero => rfl
        | succ i2 =>
          exfalso
          rw [getD_cons_zero] at hk1
          rw [getD_cons_succ] at hk2
          rw [hk1] at hko
          have hmem : k ∈ rest.filterMap keyOf := hkmem i2 (by simpa using h2) hk2
          rw [show k0 = k from by injection hko with h; exact h.symm] at hk0notin
          exact hk0notin hmem
      | succ i1 =>
        cases i2 with
        | zero =>
          exfalso
          rw [getD_cons_zero] at hk2
          rw [getD_cons_succ] at hk1
          rw [hk2] at hko
          have hmem : k ∈ rest.filterMap keyOf := hkmem i1 (by simpa using h1) hk1
          rw [show k0 = k from by injection hko with h; exact h.symm] at hk0notin
          exact hk0notin hmem
        | succ i2 =>
          rw [getD_cons_succ] at hk1 hk2
          have := ih hrestnodup i1 i2 (by simpa using h1) (by simpa using h2) hk1 hk2
          omega
    | none =>
      have hrestnodup : (rest.filterMap keyOf).Nodup := by
        simpa [List.filterMap_cons, hko] using hnodup
      cases i1 with
      | zero =>
        exfalso
        rw [getD_cons_zero] at hk1
        rw [hk1] at hko
        simp at hko
      | succ i1 =>
        cases i2 with
        | zero =>
          exfalso
          rw [getD_cons_zero] at hk2
          rw [hk2] at hko
          simp at hko
        | succ i2 =>
          rw [getD_cons_succ] at hk1 hk2
          have := ih hrestnodup i1 i2 (by simpa using h1) (by simpa using h2) hk1 hk2
          omega

theorem matchFor_k (olds : List VNode) (j : Nat) (consumed : List Nat) (n : VNode)
    (k : String) (i0 : Nat)
    (hk : keyOf n = some k)
    (hi : i0 < olds.length)
    (hki : keyOf (olds.getD i0 (.text (""))) = some k)
    (huniq : ∀ i1, i1 < olds.length → keyOf (olds.getD i1 (.text (""))) = some k → i1 = i0)
    (hcons : ¬ (i0 ∈ consumed)) :
    matchFor olds j consumed n = some i0 := by
  unfold matchFor
  rw [hk]
  have hpred : (fun i =>
      !(consumed.contains i) && (keyOf (olds.getD i (.text (""))) == some k)) i0 = true := by
    simp only [Bool.and_eq_true, Bool.not_eq_true']
    constructor
    · simpa using hcons
    · simp only [beq_iff_eq]
      exact hki
  have hex : ((List.range olds.length).find? (fun i =>
      !(consumed.contains i) && (keyOf (olds.getD i (.text (""))) == some k))).isSome :=
    List.find?_isSome.mpr ⟨i0, List.mem_range.mpr hi, hpred⟩
  have hgoal : (List.range olds.length).find? (fun i =>
      !(consumed.contains i) && (keyOf (olds.getD i (.text (""))) == some k)) = some i0 := by
    cases hfind : (List.range olds.length).find? (fun i =>
        !(consumed.contains i) && (keyOf (olds.getD i (.text (""))) == some k)) with
    | none => rw [hfind] at hex; simp at hex
    | some i1 =>
      have hp := List.find?_some hfind
      simp only [Bool.and_eq_true, Bool.not_eq_true', beq_iff_eq] at hp
      have hmem := List.mem_of_find?_eq_some hfind
      have h1 : i1 = i0 := huniq i1 (List.mem_range.mp hmem) hp.2
      rw [h1]
  exact hgoal

theorem matchFor_not_k (olds : List VNode) (j : Nat) (consumed : List Nat) (n : VNode)
    (k : String) (i0 : Nat)
    (hk : ¬ (keyOf n = some k))
    (hki : keyOf (olds.getD i0 (.text (""))) = some k) :
    ∀ i1, matchFor olds j consumed n = some i1 → i1 ≠ i0 := by
  intro i1 hm heq
  subst heq
  unfold matchFor at hm
  split at hm
  · rename_i k2 hkn
    have hp := List.find?_some hm
    simp only [Bool.and_eq_true, Bool.not_eq_true', beq_iff_eq] at hp
    have hp2 := hp.2
    rw [hki] at hp2
    injection hp2 with hkk
    exact hk (by rw [hkn, ← hkk])
  · split at hm
    · rename_i hcond
      injection hm with hm
      rw [← hm] at hki
      rw [hcond.2.1] at hki
      simp at hki
    · simp at hm

theorem matchFor_keyed (olds : List VNode) (j : Nat) (consumed : List Nat) (n : VNode)
    (k : String) (i : Nat) (hk : keyOf n = some k)
    (h : matchFor olds j consumed n = some i) :
    i < olds.length ∧ keyOf (olds.getD i (.text (""))) = some k := by
  unfold matchFor at h
  rw [hk] at h
  have hmem := List.mem_of_find?_eq_some h
  have hpred := List.find?_some h
  simp only [Bool.and_eq_true, Bool.not_eq_true', beq_iff_eq] at hpred
  exact ⟨List.mem_range.mp hmem, hpred.2⟩

theorem cm_entry_key (olds : List VNode) :
    ∀ (news : List VNode) (j : Nat) (consumed : List Nat) (jj : Nat) (k : String) (i : Nat)
    (hjj : jj < news.length)
    (hjm : jj < (computeMatchesGo olds j consumed news).length),
    (computeMatchesGo olds j consumed news)[jj] = some i →
    keyOf news[jj] = some k →
    i < olds.length ∧ keyOf (olds.getD i (.text (""))) = some k := by
  intro news
  induction news with
  | nil =>
    intro j consumed jj k i hjj hjm
    simp at hjj
  | cons n rest ih =>
    intro j consumed jj k i hjj hjm hentry hkey
    cases jj with
    | zero =>
      simp only [computeMatchesGo, List.getElem_cons_zero] at hentry
      simp only [List.getElem_cons_zero] at hkey
      exact matchFor_keyed olds j consumed n k i hkey hentry
    | succ jj =>
      simp only [computeMatchesGo, List.getElem_cons_succ] at hentry
      simp only [List.getElem_cons_succ] at hkey
      exact ih (j + 1) (consumed ++ (matchFor olds j consumed n).toList) jj k i
        (by simpa using hjj) (by simpa [computeMatchesGo] using hjm) hentry hkey

theorem cm_k (olds : List VNode) (k : String) (i0 : Nat)
    (hi : i0 < olds.length)
    (hki : keyOf (olds.getD i0 (.text (""))) = some k)
    (huniq : ∀ i1, i1 < olds.length → keyOf (olds.getD i1 (.text (""))) = some k → i1 = i0) :
    ∀ (news : List VNode) (j : Nat) (consumed : List Nat),
    (news.filterMap keyOf).Nodup →
    ¬ (i0 ∈ consumed) →
    (∀ jj, ∀ hjj : jj < news.length, keyOf news[jj] = some k →
      (computeMatchesGo olds j consumed news).getD jj none ≠ none) ∧
    ((∃ jj, ∃ hjj : jj < news.length, keyOf news[jj] = some k) →
      some i0 ∈ computeMatchesGo olds j consumed news) := by
  intro news
  induction news with
  | nil =>
    intro j consumed hnodup hcons
    constructor
    · intro jj hjj
      simp at hjj
    · rintro ⟨jj, hjj, _⟩
      simp at hjj
  | cons n rest ih =>
    intro j consumed hnodup hcons
    by_cases hkn : keyOf n = some k
    · have hm : matchFor olds j consumed n = some i0 :=
        matchFor_k olds j consumed n k i0 hkn hi hki huniq hcons
      have hnok : ∀ jj, ∀ hjj : jj < rest.length, keyOf rest[jj] ≠ some k := by
        intro jj hjj hkk
        have hkmem : k ∈ rest.filterMap keyOf :=
          List.mem_filterMap.mpr ⟨rest[jj], List.getElem_mem hjj, hkk⟩
        have hnodup2 : (k :: rest.filterMap keyOf).Nodup := by
          simpa [List.filterMap_cons, hkn] using hnodup
        exact (List.nodup_cons.mp hnodup2).1 hkmem
      constructor
      · intro jj hjj hkey
        cases jj with
        | zero =>
          simp only [computeMatchesGo, hm, List.getD]
          simp
        | succ jj =>
          exfalso
          exact hnok jj (by simpa using hjj) (by simpa using hkey)
      · intro _
        simp only [computeMatchesGo, hm]
        exact List.mem_cons_self _ _
    · have hcons2 : ¬ (i0 ∈ consumed ++ (matchFor olds j consumed n).toList) := by
        intro hmem
        rcases List.mem_append.mp hmem with hmem | hmem
        · exact hcons hmem
        · cases hmv : matchFor olds j consumed n with
          | none => rw [hmv] at hmem; simp at hmem
          | some i1 =>
            rw [hmv] at hmem
            simp only [Option.toList_some, List.mem_singleton] at hmem
            exact matchFor_not_k olds j consumed n k i0 hkn hki i1 hmv hmem.symm
      have hnodup2 : (rest.filterMap keyOf).Nodup := by
        cases hkn2 : keyOf n with
        | some k2 =>
          have : (k2 :: rest.filterMap keyOf).Nodup := by
            simpa [List.filterMap_cons, hkn2] using hnodup
          exact (List.nodup_cons.mp this).2
        | none =>
          simpa [List.filterMap_cons, hkn2] using hnodup
      rcases ih (j + 1) (consumed ++ (matchFor olds j consumed n).toList) hnodup2 hcons2
        with ⟨ihA, ihB⟩
      constructor
      · intro jj hjj hkey
        cases jj with
        | zero =>
          exfalso
          simp only [List.getElem_cons_zero] at hkey
          exact hkn hkey
        | succ jj =>
          simp only [computeMatchesGo, List.getD]
          have := ihA jj (by simpa using hjj) (by simpa using hkey)
          simpa [List.getD] using this
      · rintro ⟨jj, hjj, hkey⟩
        cases jj with
        | zero =>
          exfalso
          simp only [List.getElem_cons_zero] at hkey
          exact hkn hkey
        | succ jj =>
          simp only [computeMatchesGo]
          apply List.mem_cons_of_mem
          exact ihB ⟨jj, by simpa using hjj, by simpa using hkey⟩

/-- Shape of the arrangement output: it never removes a child, every insert it
emits carries a new child whose match entry is none, and every in-place patch
it emits sits at the arrangement position of a matched new child and is
exactly the recursive diff of that matched pair (and never the trivial keep
patch). -/
theorem arrange_ops_shape (olds : List VNode) :
    ∀ (news : List VNode) (ms : List (Option Nat)) (pending : List Nat) (j : Nat)
    (op : ChildOp), op ∈ arrangeOps olds j news ms pending →
    (match op with
     | ChildOp.remove _ => False
     | ChildOp.insert _ v => (v, (none : Option Nat)) ∈ news.zip ms
     | ChildOp.move _ _ => True
     | ChildOp.patchAt j2 p =>
        ∃ (jj i : Nat), ∃ hjj : jj < news.length, ∃ hjm : jj < ms.length,
          j2 = j + jj ∧ ms[jj] = some i ∧
          p = diff (olds.getD i (.text (""))) news[jj] ∧ ¬ (p = Patch.keep)) := by
  intro news
  induction news with
  | nil =>
    intro ms pending j op hop
    simp [arrangeOps] at hop
  | cons n rest ih =>
    intro ms pending j op hop
    cases ms with
    | nil =>
      simp [arrangeOps] at hop
    | cons m mrest =>
      cases m with
      | none =>
        simp only [arrangeOps, List.mem_cons] at hop
        rcases hop with hop | hop
        · subst hop
          simp [List.zip_cons_cons]
        · have := ih mrest pending (j + 1) op hop
          cases op with
          | remove i => exact this
          | insert i v =>
            simp only at this ⊢
            rw [List.zip_cons_cons]
            exact List.mem_cons_of_mem _ this
          | move src dst => trivial
          | patchAt j2 p =>
            simp only at this ⊢
            rcases this with ⟨jj, i, hjj, hjm, hj2, hms, hp, hpk⟩
            refine ⟨jj + 1, i, by simpa using hjj, by simpa using hjm, by omega, ?_, ?_, hpk⟩
            · simpa using hms
            · simpa using hp
      | some i =>
        simp only [arrangeOps, List.mem_append] at hop
        rcases hop with hop | hop | hop
        · by_cases hpos : idxOf i pending = 0
          · rw [if_pos hpos] at hop
            simp at hop
          · rw [if_neg hpos] at hop
            simp only [List.mem_singleton] at hop
            subst hop
            trivial
        · cases hdk : diff (olds.getD i (.text (""))) n with
          | keep =>
            rw [hdk] at hop
            simp [patchOpFor] at hop
          | setText s =>
            rw [hdk] at hop
            simp only [patchOpFor, List.mem_singleton] at hop
            subst hop
            refine ⟨0, i, by simp, by simp, by omega, by simp, ?_, by simp⟩
            simpa using hdk.symm
          | replace v =>
            rw [hdk] at hop
            simp only [patchOpFor, List.mem_singleton] at hop
            subst hop
            refine ⟨0, i, by simp, by simp, by omega, by simp, ?_, by simp⟩
            simpa using hdk.symm
          | update aops cops =>
            rw [hdk] at hop
            simp only [patchOpFor, List.mem_singleton] at hop
            subst hop
            refine ⟨0, i, by simp, by simp, by omega, by simp, ?_, by simp⟩
            simpa using hdk.symm
        · have := ih mrest (removeElem i pending) (j + 1) op hop
          cases op with
          | remove i2 => exact this
          | insert i2 v =>
            simp only at this ⊢
            rw [List.zip_cons_cons]
            exact List.mem_cons_of_mem _ this
          | move src dst => trivial
          | patchAt j2 p =>
            simp only at this ⊢
            rcases this with ⟨jj, i2, hjj, hjm, hj2, hms, hp, hpk⟩
            refine ⟨jj + 1, i2, by simpa using hjj, by simpa using hjm, by omega, ?_, ?_, hpk⟩
            · simpa using hms
            · simpa using hp

/-- C1: for every pair of virtual trees (old, new), replaying the operation
sequence produced by the Differ, in order, against a live document matching
old produces a document structurally equal to the document matching new
(spec section 4.2 guarantee and the round-trip property of section 8). -/
theorem c1_diff_replay_roundtrip (old new : VNode) :
    applyOps (diffOps old new) (render old) = some (render new) := by
  have h : modifyAt [] (applyPatch (diff old new)) (render old) = some (render new) := by
    rw [show modifyAt [] (applyPatch (diff old new)) (render old)
        = applyPatch (diff old new) (render old) from rfl]
    exact patch_roundtrip new old
  exact (flatten_sim (sizeOf (diff old new))).1 (diff old new) (le_refl _) [] _ _ h

/-- C2: diffing a virtual tree against itself produces the empty
mutation-operation sequence (idempotence, spec section 8, via the
shared-subtree fast path of section 4.1). -/
theorem c2_diff_self_empty (t : VNode) : diffOps t t = [] := by
  unfold diffOps
  rw [show diff t t = Patch.keep from by
    unfold diff
    rw [if_pos rfl]]
  simp [patchToOps]

/-- Predicate on a child-list operation: it neither destroys the old child
carrying key k nor creates a new child carrying key k. Removal indices address
the old children list; insertion carries the created node; an in-place patch
addresses the arrangement position in the new list, and at the position
holding the keyed child it must be the trivial patch or an in-place attribute
and children update — never a subtree replace (which would destroy and
recreate the child) and never a text rewrite. -/
def opPreservesKey (olds news : List VNode) (k : String) : ChildOp → Prop
  | .remove i => ¬ (keyOf (olds.getD i (.text (""))) = some k)
  | .insert _ v => ¬ (keyOf v = some k)
  | .move _ _ => True
  | .patchAt i p =>
      keyOf (news.getD i (.text (""))) = some k →
        p = Patch.keep ∨ ∃ aops cops, p = Patch.update aops cops

/-- Whether two virtual nodes are elements carrying the same tag (the same
node type in the sense of spec section 4.2). -/
def sameTag : VNode → VNode → Bool
  | .element t1 _ _ _, .element t2 _ _ _ => t1 == t2
  | _, _ => false

/-- C3 (amended): when sibling keys are unique, a keyed child occurs in both
the old and the new children lists, and the old and new nodes carrying that
key are elements of the same tag, the diff of the lists never emits a destroy
of that old child, never emits a create of a child with that key, and every
in-place patch at the position of that keyed child is an attribute and
children update, never a subtree replace — so its identity is preserved (spec
sections 4.2 and 8, key stability). Without the same-tag restriction the
property fails, because the different-tag rule of section 4.2 forces a full
replace. -/
theorem c3_keyed_child_not_destroyed_or_created
    (olds news : List VNode) (k : String) (io j : Nat)
    (hnodupo : (olds.filterMap keyOf).Nodup)
    (hnodupn : (news.filterMap keyOf).Nodup)
    (hio : io < olds.length)
    (hkeyo : keyOf (olds.getD io (.text (""))) = some k)
    (hj : j < news.length)
    (hkeyn : keyOf (news.getD j (.text (""))) = some k)
    (htag : sameTag (olds.getD io (.text (""))) (news.getD j (.text (""))) = true) :
    ∀ op ∈ diffChildren olds news, opPreservesKey olds news k op := by
  have huniq : ∀ i1, i1 < olds.length → keyOf (olds.getD i1 (.text (""))) = some k →
      i1 = io :=
    fun i1 h1 hk1 => keyOf_unique olds hnodupo k i1 io h1 hio hk1 hkeyo
  rcases cm_k olds k io hio hkeyo huniq news 0 [] hnodupn (by simp) with ⟨hA, hB⟩
  intro op hop
  simp only [diffChildren, List.mem_append] at hop
  rcases hop with hop | hop
  · rcases List.mem_map.mp hop with ⟨i, hi, hopr⟩
    rw [← hopr]
    simp only [opPreservesKey]
    intro hkik
    have hifil : i ∈ (List.range olds.length).filter
        (fun i2 => !(decide ((some i2) ∈ computeMatches olds news))) :=
      List.mem_reverse.mp hi
    have hilen : i < olds.length := List.mem_range.mp (List.mem_of_mem_filter hifil)
    have hii0 : i = io := huniq i hilen hkik
    subst hii0
    have hfil := List.of_mem_filter hifil
    have hmatched : some i ∈ computeMatches olds news := by
      apply hB
      refine ⟨j, hj, ?_⟩
      rw [show (news[j] : VNode) = news.getD j (.text (""))
        from (List.getD_eq_getElem news _ hj).symm]
      exact hkeyn
    simp [hmatched] at hfil
  · have hshape := arrange_ops_shape olds news (computeMatches olds news) _ 0 op hop
    cases op with
    | remove i => exact hshape.elim
    | insert i2 v =>
      simp only at hshape
      simp only [opPreservesKey]
      intro hkv
      rcases mem_zip_getElem news (computeMatches olds news) v none hshape
        with ⟨jj, hjj1, hjj2, hv, hmsnone⟩
      have hA2 := hA jj hjj1 (by rw [hv]; exact hkv)
      apply hA2
      rw [show computeMatchesGo olds 0 [] news = computeMatches olds news from rfl]
      rw [List.getD_eq_getElem _ _ hjj2, hmsnone]
    | move src dst => trivial
    | patchAt j2 p =>
      simp only at hshape
      rcases hshape with ⟨jj, i2, hjj, hjm, hj2, hmsjj, hp, hpk⟩
      simp only [opPreservesKey]
      intro hk2
      have hj2jj : j2 = jj := by omega
      subst hj2jj
      have hkjj : keyOf (news.getD j2 (.text (""))) = some k := hk2
      have hjm2 : j2 < (computeMatchesGo olds 0 [] news).length := hjm
      have hmsjj2 : (computeMatchesGo olds 0 [] news)[j2] = some i2 := hmsjj
      have hkjj2 : keyOf news[j2] = some k := by
        rw [← List.getD_eq_getElem news (VNode.text ("")) hjj]
        exact hkjj
      rcases cm_entry_key olds news 0 [] j2 k i2 hjj hjm2 hmsjj2 hkjj2 with ⟨hi2len, hki2⟩
      have hi2io : i2 = io := huniq i2 hi2len hki2
      subst hi2io
      have hjeq : j = j2 := keyOf_unique news hnodupn k j j2 hj hjj hkeyn hkjj
      subst hjeq
      cases ho : olds.getD i2 (.text ("")) with
      | text s =>
        rw [ho] at htag
        simp [sameTag] at htag
      | element t1 a1 k1 c1 =>
        cases hn : news.getD j (.text ("")) with
        | text s2 =>
          rw [ho, hn] at htag
          simp [sameTag] at htag
        | element t2 a2 kk2 c2 =>
          rw [ho, hn] at htag
          simp only [sameTag, beq_iff_eq] at htag
          rw [← List.getD_eq_getElem news (VNode.text ("")) hjj] at hp
          rw [ho, hn] at hp
          unfold diff at hp
          by_cases heq : (VNode.element t1 a1 k1 c1) = (VNode.element t2 a2 kk2 c2)
          · rw [if_pos heq] at hp
            exact absurd hp hpk
          · rw [if_neg heq] at hp
            have hp2 : p = (if t1 = t2
                then Patch.update (diffAttrs a1 a2) (diffChildren c1 c2)
                else Patch.replace (.element t2 a2 kk2 c2)) := hp
            rw [if_pos htag] at hp2
            exact Or.inr ⟨_, _, hp2⟩

/-- Sample keyed list items used by concrete witnesses. -/
def kli (k s : String) : VNode := .element ("li") [] (some k) [.text s]

/-- The conclusion of the keyed-child claim at one children pair: every
operation of the diff preserves the child carrying the given key. -/
def keyPreservedBy (olds news : List VNode) (k : String) : Prop :=
  ∀ op ∈ diffChildren olds news, opPreservesKey olds news k op

/-- Witness for C3 at the concrete instance of spec scenario B: old children
with keys a, b, c and new children with keys c, a, b, all li elements; the
child keyed c is in both lists with the same tag, so no operation of the diff
destroys or creates it. -/
theorem c3_witness :
    keyPreservedBy [kli ("a") ("A"), kli ("b") ("B"), kli ("c") ("C")]
      [kli ("c") ("C"), kli ("a") ("A"), kli ("b") ("B")] ("c") :=
  c3_keyed_child_not_destroyed_or_created
    [kli ("a") ("A"), kli ("b") ("B"), kli ("c") ("C")]
    [kli ("c") ("C"), kli ("a") ("A"), kli ("b") ("B")]
    ("c") 2 0 (by decide) (by decide) (by decide) (by decide) (by decide) (by decide)
      (by decide)

/-- The old keyed child of the C3 counterexample: a list item keyed c. -/
def cexOld : VNode := .element ("li") [] (some ("c")) []

/-- The new keyed child of the C3 counterexample: a div keyed c — the same key
as the old child but a different tag. -/
def cexNew : VNode := .element ("div") [] (some ("c")) []

/-- Counterexample to C3 as frozen: with sibling-unique keys and the key c
present in both children lists — every hypothesis of the original claim — the
diff emits exactly one operation, an in-place subtree replace of the keyed
child, which by the different-tag rule of spec section 4.2 destroys the old
child and creates a new one; so a keyed child present in both lists is not
always only moved. -/
theorem c3_counterexample :
    ([cexOld].filterMap keyOf).Nodup ∧
    ([cexNew].filterMap keyOf).Nodup ∧
    keyOf ([cexNew].getD 0 (.text (""))) = some ("c") ∧
    some ("c") ∈ [cexOld].map keyOf ∧
    diffChildren [cexOld] [cexNew] = [ChildOp.patchAt 0 (Patch.replace cexNew)] := by
  have hne : ¬ (cexOld = cexNew) := by
    intro h
    simp [cexOld, cexNew] at h
  have hdiff : diff cexOld cexNew = Patch.replace cexNew := by
    unfold diff
    rw [if_neg hne]
    rfl
  have harr0 : arrangeOps [cexOld] 1 [] [] (removeElem 0 [0]) = [] := by
    unfold arrangeOps
    rfl
  refine ⟨by decide, by decide, by decide, by decide, ?_⟩
  unfold diffChildren
  show ([] : List ChildOp) ++ arrangeOps [cexOld] 0 [cexNew] [some 0] [0]
      = [ChildOp.patchAt 0 (Patch.replace cexNew)]
  rw [List.nil_append]
  unfold arrangeOps
  show (if idxOf 0 [0] = 0 then [] else [ChildOp.move (0 + idxOf 0 [0]) 0]) ++
      (patchOpFor 0 (diff (([cexOld] : List VNode).getD 0 (.text (""))) cexNew) ++
       arrangeOps [cexOld] 1 [] [] (removeElem 0 [0]))
      = [ChildOp.patchAt 0 (Patch.replace cexNew)]
  rw [if_pos (show idxOf 0 [0] = 0 from rfl)]
  rw [show ([cexOld] : List VNode).getD 0 (.text ("")) = cexOld from rfl]
  rw [hdiff, harr0]
  rfl

/-- C8: the Differ is deterministic — equal (old, new) input pairs give
identical operation sequences — and within a tick the sequence is committed
by applying the operations one after another in that order, the batch
decomposing sequentially with no foreign operation interleaved. -/
theorem c8_differ_deterministic (o1 n1 o2 n2 : VNode) (ho : o1 = o2) (hn : n1 = n2) :
    diffOps o1 n1 = diffOps o2 n2 ∧
    (∀ (ops1 ops2 : List Op) (d : DNode),
      applyOps (ops1 ++ ops2) d =
        match applyOps ops1 d with
        | none => none
        | some d2 => applyOps ops2 d2) := by
  subst ho
  subst hn
  exact ⟨rfl, fun ops1 ops2 d => applyOps_append ops1 ops2 d⟩

/-- Witness for C8 at a concrete input pair. -/
theorem c8_witness :
    diffOps (VNode.text ("a")) (VNode.text ("b"))
      = diffOps (VNode.text ("a")) (VNode.text ("b")) :=
  (c8_differ_deterministic (VNode.text ("a")) (VNode.text ("b"))
    (VNode.text ("a")) (VNode.text ("b")) rfl rfl).1

/-- Modelled from the spec: a Component Instance (spec sections 3 and 4.3),
standing in for the missing component runtime. It holds a unique identity, a
monotonically increasing generation counter bumped on each committed render
and on destruction, a liveness flag (Destroyed is terminal), component-local
state, the retained Reconciled Tree, and the component behavior: the update
and view functions of section 4.3 (either may raise a fault, modelled as an
Except error, spec section 7b) and the cascading render requests a committed
render enqueues for the next drain pass. -/
structure CInst where
  id : Nat
  generation : Nat
  alive : Bool
  state : Nat
  retained : VNode
  update : Nat → Nat → Except String (Nat × Bool)
  view : Nat → Except String VNode
  cascade : Nat → List Nat

/-- Modelled from the spec: the state of one application instance (spec
sections 3, 4.4 and 4.5): the component instances, the live document slot of
each mounted component, the pending-work set of render requests in insertion
order, the log of view invocations (instrumentation of the one-view-per-tick
guarantee), the structured faults reported to the Application Handle, and the
fatal runaway error slot. -/
structure AppState where
  comps : List CInst
  doc : List (Nat × DNode)
  pending : List Nat
  viewLog : List Nat
  faults : List (Nat × String)
  fatal : Option String

/-- Modelled from the spec: set-semantics insertion into the pending-work
set — multiple render requests for the same identity coalesce to one, keeping
the insertion order of the first request (spec section 3, Scheduler Queue). -/
def enqueuePending (p : List Nat) (i : Nat) : List Nat :=
  if i ∈ p then p else p ++ [i]

/-- Lookup of a component instance by identity. -/
def findComp (s : AppState) (i : Nat) : Option CInst :=
  s.comps.find? (fun c => c.id == i)

/-- Modelled from the spec: a render request for a component identity. -/
def enqueueRender (i : Nat) (s : AppState) : AppState :=
  { s with pending := enqueuePending s.pending i }

/-- Repeated render requests for the same identity. -/
def enqueueRenderN : Nat → Nat → AppState → AppState
  | 0, _, s => s
  | n + 1, i, s => enqueueRenderN n i (enqueueRender i s)

/-- Modelled from the spec: destruction of a component instance (spec
sections 4.3 and 5): the identity is invalidated (liveness cleared and the
generation counter bumped), its live-document slot is released and its pending
work dropped. -/
def destroyComponent (i : Nat) (s : AppState) : AppState :=
  { s with
    comps := s.comps.map (fun c =>
      if c.id = i then { c with alive := false, generation := c.generation + 1 } else c),
    doc := s.doc.filter (fun p => p.1 ≠ i),
    pending := s.pending.filter (fun p => p ≠ i) }

/-- Modelled from the spec: delivery of a message or of an asynchronous
continuation carrying the generation it captured (spec sections 4.3 and 5). A
message addressed to a missing, destroyed or stale-generation instance is
silently discarded. A fault raised by update is caught at the instance
boundary: the component state is left exactly as it was and the fault is
reported as a structured error (spec section 7b). Otherwise the new state is
stored and a truthy re-render signal enqueues a render request. -/
def sendMessage (i gen msg : Nat) (s : AppState) : AppState :=
  match findComp s i with
  | none => s
  | some c =>
    if c.alive && c.generation == gen then
      match c.update c.state msg with
      | .error e => { s with faults := s.faults ++ [(i, e)] }
      | .ok r =>
        let s2 := { s with comps := s.comps.map (fun c2 =>
          if c2.id = i then { c2 with state := r.1 } else c2) }
        if r.2 then enqueueRender i s2 else s2
    else s

/-- Replacement of the live-document slot of a component identity. -/
def setSlot (i : Nat) (d : DNode) (doc : List (Nat × DNode)) : List (Nat × DNode) :=
  if doc.any (fun p => p.1 == i) then doc.map (fun p => if p.1 == i then (i, d) else p)
  else doc ++ [(i, d)]

/-- Commit of a successful render into the instance table: the retained tree
is replaced and the generation counter bumped; identity, liveness and state
are untouched. -/
def commitComp (comps : List CInst) (i : Nat) (v : VNode) : List CInst :=
  comps.map (fun c2 =>
    if c2.id = i then { c2 with retained := v, generation := c2.generation + 1 } else c2)

/-- Modelled from the spec: the render step of a live component instance
(spec sections 4.3 and 4.4). The live document is never written here: the
computed slot mutation is appended to the mutation batch the tick is
collecting, to be committed as one batch at the end of the pass. A faulting
view leaves the batch and the retained tree untouched and reports a
structured error. A successful view is diffed against the retained tree; if
replay of the operations against the current slot fails nothing is collected
and a fault is reported instead. Cascading requests produced by the render are
enqueued for the next drain pass. -/
def renderAlive (s : AppState) (batch : List (Nat × DNode)) (i : Nat) (c : CInst) :
    AppState × List (Nat × DNode) :=
  match c.view c.state with
  | .error e => ({ s with faults := s.faults ++ [(i, e)] }, batch)
  | .ok v =>
    match s.doc.find? (fun p => p.1 == i) with
    | none =>
      ({ s with
         comps := commitComp s.comps i v,
         pending := (c.cascade c.state).foldl enqueuePending s.pending },
       batch ++ [(i, render v)])
    | some slot =>
      match applyOps (diffOps c.retained v) slot.2 with
      | none => ({ s with faults := s.faults ++ [(i, ("commit failed"))] }, batch)
      | some d2 =>
        ({ s with
           comps := commitComp s.comps i v,
           pending := (c.cascade c.state).foldl enqueuePending s.pending },
         batch ++ [(i, d2)])

/-- Modelled from the spec: processing of one pending render request during
the collect phase of a pass. A missing or destroyed identity is skipped;
otherwise the view invocation is logged and the render step runs, growing the
collected mutation batch. -/
def renderComponent (s : AppState) (batch : List (Nat × DNode)) (i : Nat) :
    AppState × List (Nat × DNode) :=
  match findComp s i with
  | none => (s, batch)
  | some c =>
    if c.alive = false then (s, batch)
    else renderAlive { s with viewLog := s.viewLog ++ [i] } batch i c

/-- Modelled from the spec: the atomic commit of the mutation batch one pass
collected — each entry replaces the live-document slot of its component, in
the deterministic order the batch was collected (spec sections 4.4 and 7). -/
def commitBatch (batch : List (Nat × DNode)) (doc : List (Nat × DNode)) :
    List (Nat × DNode) :=
  batch.foldl (fun dc p => setSlot p.1 p.2 dc) doc

/-- Modelled from the spec: the collect phase of one drain pass (spec section
4.4): the pending-work set is snapshotted and cleared, then each snapshotted
identity is rendered in insertion order, collecting all resulting slot
mutations across all components into one batch; the live document is not
touched. Work enqueued during the pass lands in the pending set for the next
pass. -/
def collectPass (s : AppState) : AppState × List (Nat × DNode) :=
  s.pending.foldl (fun acc i => renderComponent acc.1 acc.2 i)
    ({ s with pending := [] }, [])

/-- Modelled from the spec: one drain pass of the scheduler (spec section
4.4): the collect phase produces the mutation batch of the whole pass, and the
batch is then committed to the live document in one atomic step — the document
is written exactly once per pass, all-or-nothing (spec section 7). -/
def drainPass (s : AppState) : AppState :=
  let r := collectPass s
  { r.1 with doc := commitBatch r.2 r.1.doc }

/-- Modelled from the spec: the conservative fixed bound on cascading drain
passes per tick (spec section 9 suggests e.g. 100 passes). -/
def maxPasses : Nat := 100

/-- The fatal runaway diagnostic. -/
def runawayMsg : String := "runaway update cycle"

/-- Modelled from the spec: the fuelled drain loop of one tick. -/
def runTickAux : Nat → AppState → AppState
  | 0, s => if s.pending.isEmpty then s else { s with fatal := some runawayMsg }
  | n + 1, s => if s.pending.isEmpty then s else runTickAux n (drainPass s)

/-- Modelled from the spec: one scheduler tick — drain passes repeat until the
pending-work set is empty, bounded by the maximum pass count; exceeding the
bound marks the application instance as fatally failed instead of looping. -/
def runTick (s : AppState) : AppState := runTickAux maxPasses s

/-- Liveness of a component identity in an application state. -/
def aliveAt (s : AppState) (i : Nat) : Prop :=
  ∃ c, findComp s i = some c ∧ c.alive = true

theorem find?_map_id_preserving (comps : List CInst) (f : CInst → CInst)
    (hid : ∀ c, (f c).id = c.id) (i : Nat) :
    (comps.map f).find? (fun c => c.id == i) =
      (comps.find? (fun c => c.id == i)).map f := by
  induction comps with
  | nil => rfl
  | cons c t ih =>
    by_cases h : c.id = i
    · rw [List.map_cons]
      rw [List.find?_cons_of_pos _ (by simp [hid c, h])]
      rw [List.find?_cons_of_pos _ (by simp [h])]
      rfl
    · rw [List.map_cons]
      rw [List.find?_cons_of_neg _ (by simp [hid c, h])]
      rw [List.find?_cons_of_neg _ (by simp [h])]
      exact ih

theorem aliveAt_commitComp (s : AppState) (comps : List CInst) (j : Nat) (v : VNode)
    (i : Nat) (hcomps : s.comps = comps)
    (h : aliveAt s i) :
    ∃ c, (commitComp comps j v).find? (fun c => c.id == i) = some c ∧ c.alive = true := by
  rcases h with ⟨c, hf, ha⟩
  unfold findComp at hf
  rw [hcomps] at hf
  unfold commitComp
  rw [find?_map_id_preserving _ _ (fun c2 => by split <;> rfl) i]
  rw [hf]
  refine ⟨_, rfl, ?_⟩
  by_cases hcj : c.id = j
  · simp only [hcj, if_pos]
    exact ha
  · simp only [hcj, if_neg, ite_false]
    exact ha

theorem renderAlive_viewLog (s : AppState) (b : List (Nat × DNode)) (i : Nat)
    (c : CInst) : (renderAlive s b i c).1.viewLog = s.viewLog := by
  unfold renderAlive
  split
  · rfl
  · split
    · rfl
    · split
      · rfl
      · rfl

theorem aliveAt_renderAlive (s : AppState) (b : List (Nat × DNode)) (j : Nat)
    (c : CInst) (i : Nat) (h : aliveAt s i) : aliveAt (renderAlive s b j c).1 i := by
  unfold renderAlive
  split
  · exact h
  · split
    · exact aliveAt_commitComp s s.comps j _ i rfl h
    · split
      · exact h
      · exact aliveAt_commitComp s s.comps j _ i rfl h

theorem aliveAt_viewLogged (s : AppState) (j : Nat) (i : Nat) (h : aliveAt s i) :
    aliveAt { s with viewLog := s.viewLog ++ [j] } i := h

theorem aliveAt_renderComponent (s : AppState) (b : List (Nat × DNode)) (j i : Nat)
    (h : aliveAt s i) : aliveAt (renderComponent s b j).1 i := by
  unfold renderComponent
  cases hf : findComp s j with
  | none => exact h
  | some c =>
    simp only []
    by_cases ha : c.alive = false
    · rw [if_pos ha]
      exact h
    · rw [if_neg ha]
      exact aliveAt_renderAlive _ b j c i (aliveAt_viewLogged s j i h)

theorem renderComponent_viewLog_other (s : AppState) (b : List (Nat × DNode))
    (j i : Nat) (hne : ¬ (j = i)) :
    (renderComponent s b j).1.viewLog.count i = s.viewLog.count i := by
  unfold renderComponent
  cases hf : findComp s j with
  | none => rfl
  | some c =>
    simp only []
    by_cases ha : c.alive = false
    · rw [if_pos ha]
    · rw [if_neg ha]
      rw [renderAlive_viewLog]
      simp only [List.count_append]
      have h0 : List.count i [j] = 0 := by
        simp [List.count_singleton]
        exact hne
      omega

theorem renderComponent_viewLog_self (s : AppState) (b : List (Nat × DNode))
    (i : Nat) (c : CInst)
    (hfind : findComp s i = some c) (halive : c.alive = true) :
    (renderComponent s b i).1.viewLog.count i = s.viewLog.count i + 1 := by
  unfold renderComponent
  simp only [hfind]
  rw [if_neg (by rw [halive]; simp)]
  rw [renderAlive_viewLog]
  simp [List.count_append, List.count_singleton]

theorem drain_foldl_count (work : List Nat) :
    ∀ (sb : AppState × List (Nat × DNode)) (i : Nat), aliveAt sb.1 i →
    ((work.foldl (fun acc j => renderComponent acc.1 acc.2 j) sb).1.viewLog.count i
      = sb.1.viewLog.count i + work.count i) ∧
    aliveAt (work.foldl (fun acc j => renderComponent acc.1 acc.2 j) sb).1 i := by
  induction work with
  | nil =>
    intro sb i h
    exact ⟨by simp, h⟩
  | cons j t ih =>
    intro sb i h
    simp only [List.foldl_cons]
    by_cases hji : j = i
    · subst hji
      rcases h with ⟨c, hf, ha⟩
      have hstep := renderComponent_viewLog_self sb.1 sb.2 j c hf ha
      have hpres := aliveAt_renderComponent sb.1 sb.2 j j ⟨c, hf, ha⟩
      rcases ih (renderComponent sb.1 sb.2 j) j hpres with ⟨hcount, halive2⟩
      refine ⟨?_, halive2⟩
      rw [hcount, hstep]
      have hc : (j :: t).count j = t.count j + 1 := by
        simp [List.count_cons]
      omega
    · have hstep := renderComponent_viewLog_other sb.1 sb.2 j i hji
      have hpres := aliveAt_renderComponent sb.1 sb.2 j i h
      rcases ih (renderComponent sb.1 sb.2 j) i hpres with ⟨hcount, halive2⟩
      refine ⟨?_, halive2⟩
      rw [hcount, hstep]
      have hij : (j == i) = false := by
        simp only [beq_eq_false_iff_ne, ne_eq]
        exact hji
      have hc : (j :: t).count i = t.count i := by
        rw [List.count_cons, hij]
        simp
      omega

theorem enqueuePending_count_zero (p : List Nat) (i : Nat) (h : p.count i = 0) :
    (enqueuePending p i).count i = 1 := by
  unfold enqueuePending
  have hnotmem : ¬ (i ∈ p) := by
    intro hmem
    have := List.count_pos_iff.mpr hmem
    omega
  rw [if_neg hnotmem]
  simp [List.count_append, List.count_singleton, h]

theorem enqueuePending_count_one (p : List Nat) (i : Nat) (h : p.count i = 1) :
    (enqueuePending p i).count i = 1 := by
  unfold enqueuePending
  have hmem : i ∈ p := List.count_pos_iff.mp (by omega)
  rw [if_pos hmem]
  exact h

theorem enqueueRenderN_structure (n i : Nat) : ∀ s : AppState,
    (enqueueRenderN n i s).comps = s.comps ∧
    (enqueueRenderN n i s).viewLog = s.viewLog ∧
    (enqueueRenderN n i s).doc = s.doc := by
  induction n with
  | zero => intro s; exact ⟨rfl, rfl, rfl⟩
  | succ n ih =>
    intro s
    simp only [enqueueRenderN]
    exact ih (enqueueRender i s)

theorem enqueueRenderN_count_one (n i : Nat) : ∀ s : AppState,
    s.pending.count i = 1 → (enqueueRenderN n i s).pending.count i = 1 := by
  induction n with
  | zero => intro s h; exact h
  | succ n ih =>
    intro s h
    simp only [enqueueRenderN]
    apply ih
    exact enqueuePending_count_one s.pending i h

/-- C4: for every number of render requests N with N at least 1, enqueuing N
render requests for the same live component identity within one tick leaves
exactly one coalesced entry for that identity in the pending-work set, and the
drain pass runs the view of that component exactly once (spec sections 3 and
8, coalescing). -/
theorem c4_render_coalescing (s : AppState) (i n : Nat) (c : CInst)
    (hn : 1 ≤ n) (hcount : s.pending.count i = 0)
    (hfind : findComp s i = some c) (halive : c.alive = true) :
    (enqueueRenderN n i s).pending.count i = 1 ∧
    (drainPass (enqueueRenderN n i s)).viewLog.count i = s.viewLog.count i + 1 := by
  have h1 : (enqueueRenderN n i s).pending.count i = 1 := by
    cases n with
    | zero => omega
    | succ n =>
      simp only [enqueueRenderN]
      apply enqueueRenderN_count_one
      exact enqueuePending_count_zero s.pending i hcount
  refine ⟨h1, ?_⟩
  rcases enqueueRenderN_structure n i s with ⟨hcomps, hvlog, _⟩
  have hfind2 : findComp { enqueueRenderN n i s with pending := ([] : List Nat) } i
      = some c := by
    unfold findComp at hfind ⊢
    simp only []
    rw [hcomps]
    exact hfind
  have halive2 : aliveAt { enqueueRenderN n i s with pending := ([] : List Nat) } i :=
    ⟨c, hfind2, halive⟩
  rcases drain_foldl_count (enqueueRenderN n i s).pending
      ({ enqueueRenderN n i s with pending := ([] : List Nat) },
        ([] : List (Nat × DNode))) i halive2 with ⟨hc, _⟩
  have hfix : (({ enqueueRenderN n i s with pending := ([] : List Nat) },
      ([] : List (Nat × DNode))) :
      AppState × List (Nat × DNode)).1
      = { enqueueRenderN n i s with pending := ([] : List Nat) } := rfl
  rw [hfix] at hc
  show ((enqueueRenderN n i s).pending.foldl
      (fun acc j => renderComponent acc.1 acc.2 j)
      ({ enqueueRenderN n i s with pending := ([] : List Nat) },
        ([] : List (Nat × DNode)))).1.viewLog.count i = s.viewLog.count i + 1
  rw [hc, h1]
  have hvl : ({ enqueueRenderN n i s with pending := ([] : List Nat) } : AppState).viewLog
      = s.viewLog := hvlog
  rw [hvl]

/-- Sample component used by concrete witnesses: a counter whose view renders
its state as a text node. -/
def sampleComp : CInst :=
  { id := 0, generation := 0, alive := true, state := 0, retained := .text ("0"),
    update := fun st _ => .ok (st + 1, true),
    view := fun st => .ok (.text (toString st)),
    cascade := fun _ => [] }

/-- Sample application holding the sample component. -/
def sampleApp : AppState :=
  { comps := [sampleComp], doc := [], pending := [], viewLog := [], faults := [],
    fatal := none }

/-- Witness for C4: three render requests for the same identity coalesce to one
pending entry and one view invocation in the drain pass. -/
theorem c4_witness :
    (enqueueRenderN 3 0 sampleApp).pending.count 0 = 1 ∧
    (drainPass (enqueueRenderN 3 0 sampleApp)).viewLog.count 0
      = sampleApp.viewLog.count 0 + 1 :=
  c4_render_coalescing sampleApp 0 3 sampleComp (by decide) (by decide) rfl rfl

theorem findComp_destroy (s : AppState) (i : Nat) (c : CInst)
    (h : findComp (destroyComponent i s) i = some c) : c.alive = false := by
  unfold findComp destroyComponent at h
  simp only [] at h
  have hpred := List.find?_some h
  have hmem := List.mem_of_find?_eq_some h
  rcases List.mem_map.mp hmem with ⟨c0, hc0, hfc⟩
  by_cases h0 : c0.id = i
  · rw [← hfc]
    simp [h0]
  · exfalso
    rw [← hfc] at hpred
    simp [h0] at hpred

/-- C5: a message or asynchronous continuation delivered to a component after
its destroy has run has no observable effect — the application state, the live
document and all component state are unchanged and no fault is recorded — the
delivery is silently discarded by the liveness and stale-generation check
(spec sections 4.3, 5 and 7d). -/
theorem c5_message_after_destroy_noop (s : AppState) (i gen msg : Nat) :
    sendMessage i gen msg (destroyComponent i s) = destroyComponent i s := by
  cases hf : findComp (destroyComponent i s) i with
  | none =>
    unfold sendMessage
    rw [hf]
  | some c =>
    have halive : c.alive = false := findComp_destroy s i c hf
    unfold sendMessage
    rw [hf]
    simp only [halive]
    rw [if_neg (by simp)]

/-- The live-document slot entry of a component identity. -/
def slotOf (i : Nat) (doc : List (Nat × DNode)) : Option (Nat × DNode) :=
  doc.find? (fun p => p.1 == i)

theorem slotOf_map_set (j : Nat) (d : DNode) (i : Nat) (hne : ¬ (j = i)) :
    ∀ doc : List (Nat × DNode),
    slotOf i (doc.map (fun p => if p.1 == j then (j, d) else p)) = slotOf i doc := by
  intro doc
  induction doc with
  | nil => rfl
  | cons p t ih =>
    rw [List.map_cons]
    by_cases hpi : p.1 = i
    · have hpj : ¬ (p.1 = j) := by rw [hpi]; exact fun hh => hne hh.symm
      unfold slotOf
      rw [show (if p.1 == j then (j, d) else p) = p from by simp [hpj]]
      rw [List.find?_cons_of_pos _ (by simp [hpi])]
      rw [List.find?_cons_of_pos _ (by simp [hpi])]
    · unfold slotOf
      by_cases hpj : p.1 = j
      · rw [show (if p.1 == j then (j, d) else p) = (j, d) from by simp [hpj]]
        rw [List.find?_cons_of_neg _ (by simp [hne])]
        rw [List.find?_cons_of_neg _ (by simp [hpi])]
        exact ih
      · rw [show (if p.1 == j then (j, d) else p) = p from by simp [hpj]]
        rw [List.find?_cons_of_neg _ (by simp [hpi])]
        rw [List.find?_cons_of_neg _ (by simp [hpi])]
        exact ih

theorem slotOf_append_ne (j : Nat) (d : DNode) (i : Nat) (hne : ¬ (j = i)) :
    ∀ doc : List (Nat × DNode), slotOf i (doc ++ [(j, d)]) = slotOf i doc := by
  intro doc
  induction doc with
  | nil =>
    unfold slotOf
    simp only [List.nil_append]
    rw [List.find?_cons_of_neg _ (by simp [hne])]
  | cons p t ih =>
    by_cases hpi : p.1 = i
    · unfold slotOf
      rw [List.cons_append]
      rw [List.find?_cons_of_pos _ (by simp [hpi])]
      rw [List.find?_cons_of_pos _ (by simp [hpi])]
    · unfold slotOf
      rw [List.cons_append]
      rw [List.find?_cons_of_neg _ (by simp [hpi])]
      rw [List.find?_cons_of_neg _ (by simp [hpi])]
      exact ih

theorem slotOf_setSlot_ne (j : Nat) (d : DNode) (i : Nat) (hne : ¬ (j = i))
    (doc : List (Nat × DNode)) : slotOf i (setSlot j d doc) = slotOf i doc := by
  unfold setSlot
  split
  · exact slotOf_map_set j d i hne doc
  · exact slotOf_append_ne j d i hne doc

theorem commitBatch_frame (batch : List (Nat × DNode)) :
    ∀ (doc : List (Nat × DNode)) (i : Nat),
    (∀ p ∈ batch, ¬ (p.1 = i)) →
    slotOf i (commitBatch batch doc) = slotOf i doc := by
  induction batch with
  | nil =>
    intro doc i _
    rfl
  | cons p t ih =>
    intro doc i h
    have h1 : ¬ (p.1 = i) := h p (List.mem_cons_self _ _)
    have h2 : ∀ q ∈ t, ¬ (q.1 = i) := fun q hq => h q (List.mem_cons_of_mem _ hq)
    unfold commitBatch
    simp only [List.foldl_cons]
    have hrest := ih (setSlot p.1 p.2 doc) i h2
    unfold commitBatch at hrest
    rw [hrest]
    exact slotOf_setSlot_ne p.1 p.2 i h1 doc

theorem renderComponent_doc (s : AppState) (b : List (Nat × DNode)) (j : Nat) :
    (renderComponent s b j).1.doc = s.doc := by
  unfold renderComponent
  split
  · rfl
  · split
    · rfl
    · unfold renderAlive
      split
      · rfl
      · split
        · rfl
        · split
          · rfl
          · rfl

theorem collect_fold_doc (work : List Nat) :
    ∀ (sb : AppState × List (Nat × DNode)),
    (work.foldl (fun acc j => renderComponent acc.1 acc.2 j) sb).1.doc = sb.1.doc := by
  induction work with
  | nil =>
    intro sb
    rfl
  | cons j t ih =>
    intro sb
    simp only [List.foldl_cons]
    rw [ih (renderComponent sb.1 sb.2 j)]
    exact renderComponent_doc sb.1 sb.2 j

theorem renderComponent_faults_mono (s : AppState) (b : List (Nat × DNode)) (j : Nat) :
    ∃ t, (renderComponent s b j).1.faults = s.faults ++ t := by
  unfold renderComponent
  split
  · exact ⟨[], by simp⟩
  · split
    · exact ⟨[], by simp⟩
    · unfold renderAlive
      split
      · exact ⟨_, rfl⟩
      · split
        · exact ⟨[], by simp⟩
        · split
          · exact ⟨_, rfl⟩
          · exact ⟨[], by simp⟩

theorem collect_fold_faults_mono (work : List Nat) :
    ∀ (sb : AppState × List (Nat × DNode)),
    ∃ t, (work.foldl (fun acc j => renderComponent acc.1 acc.2 j) sb).1.faults
      = sb.1.faults ++ t := by
  induction work with
  | nil =>
    intro sb
    exact ⟨[], by simp⟩
  | cons j t ih =>
    intro sb
    simp only [List.foldl_cons]
    rcases ih (renderComponent sb.1 sb.2 j) with ⟨t2, ht2⟩
    rcases renderComponent_faults_mono sb.1 sb.2 j with ⟨t1, ht1⟩
    exact ⟨t1 ++ t2, by rw [ht2, ht1, List.append_assoc]⟩

theorem findComp_commitComp_ne (comps : List CInst) (j : Nat) (v : VNode) (i : Nat)
    (c : CInst) (hne : ¬ (j = i))
    (h : comps.find? (fun c2 => c2.id == i) = some c) :
    (commitComp comps j v).find? (fun c2 => c2.id == i) = some c := by
  unfold commitComp
  rw [find?_map_id_preserving _ _ (fun c2 => by split <;> rfl) i]
  rw [h]
  have hid : c.id = i := by
    have hp := List.find?_some h
    simpa using hp
  have hcj : ¬ (c.id = j) := by rw [hid]; exact fun hh => hne hh.symm
  simp [hcj]

theorem renderComponent_fault_step (s : AppState) (b : List (Nat × DNode)) (j i : Nat)
    (c : CInst) (e : String)
    (hfind : findComp s i = some c) (halive : c.alive = true)
    (herr : c.view c.state = Except.error e) :
    findComp (renderComponent s b j).1 i = some c ∧
    (∀ p ∈ (renderComponent s b j).2, p ∈ b ∨ ¬ (p.1 = i)) ∧
    (j = i → (i, e) ∈ (renderComponent s b j).1.faults) := by
  unfold renderComponent
  cases hfj : findComp s j with
  | none =>
    refine ⟨hfind, fun p hp => Or.inl hp, ?_⟩
    intro hji
    rw [hji] at hfj
    rw [hfind] at hfj
    cases hfj
  | some cj =>
    simp only []
    by_cases ha : cj.alive = false
    · rw [if_pos ha]
      refine ⟨hfind, fun p hp => Or.inl hp, ?_⟩
      intro hji
      rw [hji] at hfj
      rw [hfind] at hfj
      injection hfj with hcc
      rw [← hcc] at ha
      rw [halive] at ha
      exact absurd ha (by simp)
    · rw [if_neg ha]
      by_cases hji : j = i
      · have hcc : cj = c := by
          rw [hji] at hfj
          rw [hfind] at hfj
          injection hfj with hh
          exact hh.symm
        subst hcc
        unfold renderAlive
        simp only [herr]
        refine ⟨hfind, fun p hp => Or.inl hp, ?_⟩
        intro _
        simp [hji]
      · unfold renderAlive
        split
        · exact ⟨hfind, fun p hp => Or.inl hp, fun hh => absurd hh hji⟩
        · split
          · refine ⟨?_, ?_, fun hh => absurd hh hji⟩
            · exact findComp_commitComp_ne s.comps j _ i c hji hfind
            · intro p hp
              rcases List.mem_append.mp hp with hp | hp
              · exact Or.inl hp
              · right
                simp only [List.mem_singleton] at hp
                subst hp
                exact hji
          · split
            · exact ⟨hfind, fun p hp => Or.inl hp, fun hh => absurd hh hji⟩
            · refine ⟨?_, ?_, fun hh => absurd hh hji⟩
              · exact findComp_commitComp_ne s.comps j _ i c hji hfind
              · intro p hp
                rcases List.mem_append.mp hp with hp | hp
                · exact Or.inl hp
                · right
                  simp only [List.mem_singleton] at hp
                  subst hp
                  exact hji

theorem collect_fold_fault (work : List Nat) :
    ∀ (sb : AppState × List (Nat × DNode)) (i : Nat) (c : CInst) (e : String),
    findComp sb.1 i = some c → c.alive = true → c.view c.state = Except.error e →
    findComp (work.foldl (fun acc j => renderComponent acc.1 acc.2 j) sb).1 i = some c ∧
    (∀ p ∈ (work.foldl (fun acc j => renderComponent acc.1 acc.2 j) sb).2,
      p ∈ sb.2 ∨ ¬ (p.1 = i)) ∧
    (i ∈ work →
      (i, e) ∈ (work.foldl (fun acc j => renderComponent acc.1 acc.2 j) sb).1.faults) := by
  induction work with
  | nil =>
    intro sb i c e hfind _ _
    exact ⟨hfind, fun p hp => Or.inl hp, fun hi => absurd hi (by simp)⟩
  | cons j t ih =>
    intro sb i c e hfind halive herr
    simp only [List.foldl_cons]
    rcases renderComponent_fault_step sb.1 sb.2 j i c e hfind halive herr
      with ⟨hstep1, hstep2, hstep3⟩
    rcases ih (renderComponent sb.1 sb.2 j) i c e hstep1 halive herr
      with ⟨ih1, ih2, ih3⟩
    refine ⟨ih1, ?_, ?_⟩
    · intro p hp
      rcases ih2 p hp with hp2 | hp2
      · exact hstep2 p hp2
      · exact Or.inr hp2
    · intro hmem
      rcases List.mem_cons.mp hmem with hmem | hmem
      · have hin := hstep3 hmem.symm
        rcases collect_fold_faults_mono t (renderComponent sb.1 sb.2 j) with ⟨t2, ht2⟩
        rw [ht2]
        exact List.mem_append_left _ hin
      · exact ih3 hmem

/-- C6: a fault raised while computing a component's view or update is caught
at the Component Instance boundary with no partially applied mutation: a view
fault during the collect phase leaves the document, the component table and
the collected batch exactly as they were and reports a structured error
naming the identity; an update fault leaves the whole application state
unchanged except for the reported structured error; and a tick's mutations
are committed all-or-nothing as one batch — the collect phase never writes
the document, one drain pass writes it exactly once with the collected batch,
and even mid-batch a faulting component's slot is exactly as it was before
the pass while its fault is reported (spec sections 4.3, 4.4, 7b and
scenario D). -/
theorem c6_render_fault_atomic (s : AppState) (i : Nat) (c : CInst)
    (hfind : findComp s i = some c) (halive : c.alive = true) :
    (∀ (e : String) (b : List (Nat × DNode)), c.view c.state = Except.error e →
      (renderComponent s b i).1.doc = s.doc ∧
      (renderComponent s b i).1.comps = s.comps ∧
      (renderComponent s b i).1.faults = s.faults ++ [(i, e)] ∧
      (renderComponent s b i).2 = b) ∧
    (∀ (gen msg : Nat) (e : String), c.generation = gen →
      c.update c.state msg = Except.error e →
      sendMessage i gen msg s = { s with faults := s.faults ++ [(i, e)] }) ∧
    (∀ s2 : AppState, (collectPass s2).1.doc = s2.doc ∧
      drainPass s2 = { (collectPass s2).1 with
        doc := commitBatch (collectPass s2).2 (collectPass s2).1.doc }) ∧
    (∀ (s2 : AppState) (i2 : Nat) (c2 : CInst) (e2 : String),
      findComp s2 i2 = some c2 → c2.alive = true →
      c2.view c2.state = Except.error e2 →
      slotOf i2 (drainPass s2).doc = slotOf i2 s2.doc ∧
      (i2 ∈ s2.pending → (i2, e2) ∈ (drainPass s2).faults)) := by
  refine ⟨?_, ?_, ?_, ?_⟩
  · intro e b herr
    unfold renderComponent
    simp only [hfind]
    rw [if_neg (by rw [halive]; simp)]
    unfold renderAlive
    simp only [herr]
    refine ⟨?_, ?_, ?_, ?_⟩ <;> trivial
  · intro gen msg e hgen herr
    unfold sendMessage
    simp only [hfind]
    rw [if_pos (by rw [halive, hgen]; simp)]
    simp only [herr]
  · intro s2
    constructor
    · exact collect_fold_doc s2.pending
        ({ s2 with pending := ([] : List Nat) }, ([] : List (Nat × DNode)))
    · rfl
  · intro s2 i2 c2 e2 hf2 ha2 he2
    have hfind2 : findComp ({ s2 with pending := ([] : List Nat) } : AppState) i2
        = some c2 := hf2
    rcases collect_fold_fault s2.pending
        ({ s2 with pending := ([] : List Nat) }, ([] : List (Nat × DNode)))
        i2 c2 e2 hfind2 ha2 he2 with ⟨hc1, hc2, hc3⟩
    constructor
    · show slotOf i2 (commitBatch (collectPass s2).2 (collectPass s2).1.doc)
        = slotOf i2 s2.doc
      have hdoc : (collectPass s2).1.doc = s2.doc :=
        collect_fold_doc s2.pending
          ({ s2 with pending := ([] : List Nat) }, ([] : List (Nat × DNode)))
      rw [hdoc]
      apply commitBatch_frame
      intro p hp
      rcases hc2 p hp with hp2 | hp2
      · simp at hp2
      · exact hp2
    · intro hpend
      show (i2, e2) ∈ (collectPass s2).1.faults
      exact hc3 hpend

/-- Sample faulting component for the C6 witness: both its view and its update
raise a fault. -/
def faultComp : CInst :=
  { id := 0, generation := 0, alive := true, state := 0, retained := .text ("0"),
    update := fun _ _ => .error ("boom-update"),
    view := fun _ => .error ("boom"),
    cascade := fun _ => [] }

/-- Sample application holding the faulting component with a committed
document slot and a pending render for it. -/
def faultApp : AppState :=
  { comps := [faultComp], doc := [(0, .text ("0"))], pending := [0], viewLog := [],
    faults := [], fatal := none }

/-- Witness for C6: at the faulting component, the view fault leaves document,
component table and collected batch unchanged and reports the fault; the
update fault reports its fault and changes nothing else; and across the whole
drain pass the faulted slot is untouched while the fault is recorded. -/
theorem c6_witness :
    (renderComponent faultApp [] 0).1.doc = faultApp.doc ∧
    (renderComponent faultApp [] 0).1.comps = faultApp.comps ∧
    (renderComponent faultApp [] 0).1.faults = faultApp.faults ++ [(0, ("boom"))] ∧
    (renderComponent faultApp [] 0).2 = [] ∧
    sendMessage 0 0 1 faultApp
      = { faultApp with faults := faultApp.faults ++ [(0, ("boom-update"))] } ∧
    slotOf 0 (drainPass faultApp).doc = slotOf 0 faultApp.doc ∧
    (0, ("boom")) ∈ (drainPass faultApp).faults := by
  have h := c6_render_fault_atomic faultApp 0 faultComp rfl rfl
  rcases h.1 ("boom") [] rfl with ⟨h1, h2, h3, h4⟩
  refine ⟨h1, h2, h3, h4, ?_, ?_, ?_⟩
  · exact h.2.1 0 1 ("boom-update") rfl rfl
  · exact (h.2.2.2 faultApp 0 faultComp ("boom") rfl rfl rfl).1
  · exact (h.2.2.2 faultApp 0 faultComp ("boom") rfl rfl rfl).2 (by decide)

/-- C7: every scheduler tick terminates — the drain loop runs at most the
fixed maximum number of passes; either the pending-work set empties within the
bound after some number k of passes (work produced during a pass is deferred
to the next pass by construction of drainPass), or after the maximal number of
passes work still remains and the tick ends with the fatal runaway error
reported instead of looping forever (spec sections 4.4 and 7c). -/
theorem c7_tick_bounded (s : AppState) :
    (∃ k, k ≤ maxPasses ∧ runTick s = drainPass^[k] s ∧
      (drainPass^[k] s).pending = []) ∨
    (runTick s = { drainPass^[maxPasses] s with fatal := some runawayMsg } ∧
      (drainPass^[maxPasses] s).pending ≠ []) := by
  have main : ∀ (n : Nat) (s : AppState),
      (∃ k, k ≤ n ∧ runTickAux n s = drainPass^[k] s ∧
        (drainPass^[k] s).pending = []) ∨
      (runTickAux n s = { drainPass^[n] s with fatal := some runawayMsg } ∧
        (drainPass^[n] s).pending ≠ []) := by
    intro n
    induction n with
    | zero =>
      intro s
      by_cases h : s.pending.isEmpty
      · left
        refine ⟨0, le_refl _, ?_, ?_⟩
        · simp [runTickAux, h]
        · simpa [List.isEmpty_iff] using h
      · right
        constructor
        · simp only [runTickAux, h]
          simp
        · simp only [Function.iterate_zero_apply]
          intro hh
          rw [hh] at h
          simp at h
    | succ n ih =>
      intro s
      by_cases h : s.pending.isEmpty
      · left
        refine ⟨0, Nat.zero_le _, ?_, ?_⟩
        · simp [runTickAux, h]
        · simpa [List.isEmpty_iff] using h
      · rcases ih (drainPass s) with ⟨k, hk, heq, hemp⟩ | ⟨heq, hne⟩
        · left
          refine ⟨k + 1, by omega, ?_, ?_⟩
          · simp only [runTickAux, h]
            rw [if_neg (by simp)]
            rw [heq, Function.iterate_succ_apply]
          · rw [Function.iterate_succ_apply]
            exact hemp
        · right
          constructor
          · simp only [runTickAux, h]
            rw [if_neg (by simp)]
            rw [heq, Function.iterate_succ_apply]
          · rw [Function.iterate_succ_apply]
            exact hne
  exact main maxPasses s

/-- Handle of a host document element (web_sys::Element), opaque here. -/
abbrev Element := Nat

/-- A process-wide panic hook: either a custom hook supplied by the
application (identified by an opaque token) or the default console-error
hook. -/
inductive Hook where
  | custom (id : Nat) : Hook
  | consoleError : Hook
deriving DecidableEq

/-- The process-wide panic-hook state of packages/yew/src/lib.rs: the hook
currently installed through std panic set_hook, and the thread-local
PANIC_HOOK_IS_SET cell (lib.rs lines 302 to 304). -/
structure PanicState where
  installed : Option Hook
  panicHookIsSet : Bool
deriving DecidableEq

/-- Embedding of set_custom_panic_hook (lib.rs lines 309 to 312): installs the
given hook and sets PANIC_HOOK_IS_SET. -/
def set_custom_panic_hook (h : Nat) (_s : PanicState) : PanicState :=
  { installed := some (Hook.custom h), panicHookIsSet := true }

/-- Embedding of set_default_panic_hook (lib.rs lines 314 to 318): replaces
the PANIC_HOOK_IS_SET cell with true and, when the previous value was false,
installs the console-error hook. -/
def set_default_panic_hook (s : PanicState) : PanicState :=
  let old := s.panicHookIsSet
  let s2 := { s with panicHookIsSet := true }
  if old = false then { s2 with installed := some Hook.consoleError } else s2

/-- The application handle returned by the start_app entry points; the
app_handle module is not under src, so this carries what mounting consumes
(Modelled from the spec, section 4.5). -/
structure AppHandle (Props : Type) where
  element : Element
  props : Props
deriving DecidableEq

/-- Modelled from the spec: AppHandle mount_with_props binds the root
component with its properties to the mount element (spec section 4.5); the
Rc wrapper of the Rust code has no observable counterpart here. -/
def AppHandle.mount_with_props {Props : Type} (element : Element) (props : Props) :
    AppHandle Props :=
  { element := element, props := props }

/-- Embedding of start_app_with_props_in_element (lib.rs lines 342 to 351):
installs the default panic hook unless one is set, then mounts. -/
def start_app_with_props_in_element {Props : Type} (element : Element) (props : Props)
    (s : PanicState) : AppHandle Props × PanicState :=
  (AppHandle.mount_with_props element props, set_default_panic_hook s)

/-- Embedding of start_app_in_element (lib.rs lines 322 to 328): delegates to
start_app_with_props_in_element with the default properties. -/
def start_app_in_element {Props : Type} [Inhabited Props] (element : Element)
    (s : PanicState) : AppHandle Props × PanicState :=
  start_app_with_props_in_element element (default : Props) s

/-- Embedding of start_app_with_props (lib.rs lines 355 to 366): the body
element of the host document is looked up first (Rust evaluates the argument
before the call) and its absence panics with the expect message, so in that
case the panic-hook state is untouched. -/
def start_app_with_props {Props : Type} (body : Option Element) (props : Props)
    (s : PanicState) : Except String (AppHandle Props × PanicState) :=
  match body with
  | none => Except.error ("no body node found")
  | some el => Except.ok (start_app_with_props_in_element el props s)

/-- Embedding of start_app (lib.rs lines 332 to 338): delegates to
start_app_with_props with the default properties. -/
def start_app {Props : Type} [Inhabited Props] (body : Option Element)
    (s : PanicState) : Except String (AppHandle Props × PanicState) :=
  start_app_with_props body (default : Props) s

/-- One call to a start_app entry point, for traces over the four entry
points; properties of the trace calls are opaque tokens. -/
inductive StartCall where
  | inElement (e : Element) : StartCall
  | plain : StartCall
  | withPropsInElement (e : Element) (p : Nat) : StartCall
  | withProps (p : Nat) : StartCall

/-- Effect of one start_app entry-point call on the panic-hook state; a call
that panics on a missing body leaves the state untouched. -/
def applyStart (body : Option Element) (c : StartCall) (s : PanicState) : PanicState :=
  match c with
  | .inElement e => (@start_app_in_element Nat _ e s).2
  | .withPropsInElement e p => (start_app_with_props_in_element e p s).2
  | .plain =>
    match @start_app Nat _ body s with
    | .ok r => r.2
    | .error _ => s
  | .withProps p =>
    match start_app_with_props body p s with
    | .ok r => r.2
    | .error _ => s

/-- The panic-hook state after a trace of start_app entry-point calls. -/
def runStarts (body : Option Element) (calls : List StartCall) (s : PanicState) :
    PanicState :=
  calls.foldl (fun s2 c => applyStart body c s2) s

/-- Whether an entry-point call reaches set_default_panic_hook (all do except
the body-resolving ones when the document has no body). -/
def reachesHookSet (body : Option Element) : StartCall → Bool
  | .inElement _ => true
  | .withPropsInElement _ _ => true
  | .plain => body.isSome
  | .withProps _ => body.isSome

/-- Number of calls of a trace that install the default panic hook: those that
reach set_default_panic_hook while PANIC_HOOK_IS_SET is still false. -/
def defaultInstallCount (body : Option Element) :
    List StartCall → PanicState → Nat
  | [], _ => 0
  | c :: rest, s =>
    (if reachesHookSet body c = true ∧ s.panicHookIsSet = false then 1 else 0)
      + defaultInstallCount body rest (applyStart body c s)

theorem set_default_flagged (s : PanicState) (h : s.panicHookIsSet = true) :
    set_default_panic_hook s = s := by
  unfold set_default_panic_hook
  rw [h]
  simp only []
  cases s
  simp at h
  simp [h]

theorem applyStart_flagged (body : Option Element) (c : StartCall) (s : PanicState)
    (h : s.panicHookIsSet = true) : applyStart body c s = s := by
  cases c with
  | inElement e =>
    simp [applyStart, start_app_in_element, start_app_with_props_in_element,
      set_default_flagged s h]
  | withPropsInElement e p =>
    simp [applyStart, start_app_with_props_in_element, set_default_flagged s h]
  | plain =>
    cases body with
    | none => simp [applyStart, start_app, start_app_with_props]
    | some el =>
      simp [applyStart, start_app, start_app_with_props,
        start_app_with_props_in_element, set_default_flagged s h]
  | withProps p =>
    cases body with
    | none => simp [applyStart, start_app_with_props]
    | some el =>
      simp [applyStart, start_app_with_props, start_app_with_props_in_element,
        set_default_flagged s h]

theorem applyStart_reaches_sets_flag (body : Option Element) (c : StartCall)
    (s : PanicState) (h : reachesHookSet body c = true) :
    (applyStart body c s).panicHookIsSet = true := by
  cases c with
  | inElement e =>
    simp [applyStart, start_app_in_element, start_app_with_props_in_element,
      set_default_panic_hook]
    split <;> rfl
  | withPropsInElement e p =>
    simp [applyStart, start_app_with_props_in_element, set_default_panic_hook]
    split <;> rfl
  | plain =>
    cases body with
    | none => simp [reachesHookSet] at h
    | some el =>
      simp [applyStart, start_app, start_app_with_props,
        start_app_with_props_in_element, set_default_panic_hook]
      split <;> rfl
  | withProps p =>
    cases body with
    | none => simp [reachesHookSet] at h
    | some el =>
      simp [applyStart, start_app_with_props, start_app_with_props_in_element,
        set_default_panic_hook]
      split <;> rfl

theorem applyStart_not_reaches (body : Option Element) (c : StartCall)
    (s : PanicState) (h : reachesHookSet body c = false) :
    applyStart body c s = s := by
  cases c with
  | inElement e => simp [reachesHookSet] at h
  | withPropsInElement e p => simp [reachesHookSet] at h
  | plain =>
    cases body with
    | none => simp [applyStart, start_app, start_app_with_props]
    | some el => simp [reachesHookSet] at h
  | withProps p =>
    cases body with
    | none => simp [applyStart, start_app_with_props]
    | some el => simp [reachesHookSet] at h

theorem defaultInstallCount_flagged (body : Option Element) :
    ∀ (calls : List StartCall) (s : PanicState), s.panicHookIsSet = true →
    defaultInstallCount body calls s = 0 := by
  intro calls
  induction calls with
  | nil => intro s _; rfl
  | cons c rest ih =>
    intro s h
    unfold defaultInstallCount
    rw [if_neg (by simp [h])]
    rw [applyStart_flagged body c s h]
    simp [ih s h]

theorem runStarts_flagged (body : Option Element) :
    ∀ (calls : List StartCall) (s : PanicState), s.panicHookIsSet = true →
    runStarts body calls s = s := by
  intro calls
  induction calls with
  | nil => intro s _; rfl
  | cons c rest ih =>
    intro s h
    unfold runStarts
    simp only [List.foldl_cons]
    rw [applyStart_flagged body c s h]
    exact ih s h

/-- C9: once set_custom_panic_hook has run, no later sequence of start_app
entry-point calls replaces the installed custom hook; and along any trace of
start_app calls, from any starting state, the default console-error panic hook
is installed at most once — the PANIC_HOOK_IS_SET cell is set on the first
install and checked by every later call. -/
theorem c9_panic_hook_set_once :
    (∀ (h : Nat) (s : PanicState) (body : Option Element) (calls : List StartCall),
      (runStarts body calls (set_custom_panic_hook h s)).installed
        = some (Hook.custom h)) ∧
    (∀ (body : Option Element) (calls : List StartCall) (s : PanicState),
      defaultInstallCount body calls s ≤ 1) := by
  constructor
  · intro h s body calls
    rw [runStarts_flagged body calls (set_custom_panic_hook h s) rfl]
    rfl
  · intro body calls
    induction calls with
    | nil => intro s; simp [defaultInstallCount]
    | cons c rest ih =>
      intro s
      unfold defaultInstallCount
      by_cases hflag : s.panicHookIsSet = true
      · rw [if_neg (by simp [hflag])]
        rw [applyStart_flagged body c s hflag]
        have := defaultInstallCount_flagged body rest s hflag
        omega
      · have hflag2 : s.panicHookIsSet = false := by
          cases hv : s.panicHookIsSet
          · rfl
          · exact absurd hv hflag
        by_cases hreach : reachesHookSet body c = true
        · rw [if_pos ⟨hreach, hflag2⟩]
          have hset := applyStart_reaches_sets_flag body c s hreach
          have := defaultInstallCount_flagged body rest (applyStart body c s) hset
          omega
        · have hreach2 : reachesHookSet body c = false := by
            cases hv : reachesHookSet body c
            · rfl
            · exact absurd hv hreach
          rw [if_neg (by simp [hreach2])]
          rw [applyStart_not_reaches body c s hreach2]
          have := ih s
          omega

/-- C10: the four start_app entry points reduce to the single mount path of
start_app_with_props_in_element — start_app_in_element equals
start_app_with_props_in_element at the default properties, start_app equals
start_app_with_props at the default properties, start_app_with_props resolves
the document body (panicking when absent) and calls
start_app_with_props_in_element, which installs the default panic hook and
mounts (lib.rs lines 322 to 366). -/
theorem c10_entry_points_single_mount_path (Props : Type) [Inhabited Props]
    (e : Element) (body : Option Element) (p : Props) (s : PanicState) :
    @start_app_in_element Props _ e s
      = start_app_with_props_in_element e (default : Props) s ∧
    @start_app Props _ body s
      = start_app_with_props body (default : Props) s ∧
    start_app_with_props body p s
      = (match body with
         | none => Except.error ("no body node found")
         | some el => Except.ok (start_app_with_props_in_element el p s)) ∧
    start_app_with_props_in_element e p s
      = (AppHandle.mount_with_props e p, set_default_panic_hook s) :=
  ⟨rfl, rfl, rfl, rfl⟩

end Yew
